import Mathlib

/-!
Shallow embedding of `setup.py` and `build.py` of `bpad_proto1_core`.

The file system rooted at the script directory is modelled as an ordered
tree of named entries; the order of a directory's children models the
enumeration order of `os.listdir` / `os.walk`.  Both scripts are modelled
as pure functions from an initial file-system state (plus, for `setup.py`,
the parsed content of the vendor zip, and, for `build.py`, the operator's
version input and the outcome of the `git rev-parse` subprocess) to an
outcome record carrying the final file-system state and the exit status.
Fallible operating-system calls are modelled as `Except`-valued functions;
an uncaught exception and an explicit `sys.exit(1)` both terminate the
procedure with a nonzero exit, recorded as a `fatal` outcome.
-/

namespace Bpad

/-- A path relative to the script directory, as a list of name components. -/
abbrev Path := List String

/-- A file-system entry: a regular file with its byte content (modelled as a
string), or a directory with an ordered list of named children. -/
inductive FSEntry where
  | file (content : String)
  | dir (children : List (String × FSEntry))

/-- The children of the script directory (the root of every path). -/
abbrev FS := List (String × FSEntry)

/-- First child of the given name, in listing order. -/
def findChild : FS → String → Option FSEntry
  | [], _ => none
  | (m, e) :: r, n => if m = n then some e else findChild r n

/-- Replace the first child of the given name, or append a new child. -/
def setChild : FS → String → FSEntry → FS
  | [], n, e => [(n, e)]
  | (m, x) :: r, n, e => if m = n then (n, e) :: r else (m, x) :: setChild r n e

/-- Remove the first child of the given name. -/
def removeChild : FS → String → FS
  | [], _ => []
  | (m, x) :: r, n => if m = n then r else (m, x) :: removeChild r n

/-- Resolve a path below an entry. -/
def lookupE : FSEntry → Path → Option FSEntry
  | e, [] => some e
  | .file _, _ :: _ => none
  | .dir cs, n :: p =>
    match findChild cs n with
    | some e => lookupE e p
    | none => none

/-- Resolve a path below the script directory. -/
def lookupFS (fs : FS) (p : Path) : Option FSEntry := lookupE (.dir fs) p

def isDirB : FSEntry → Bool
  | .dir _ => true
  | .file _ => false

def isDirO : Option FSEntry → Bool
  | some (.dir _) => true
  | _ => false

def isFileO : Option FSEntry → Bool
  | some (.file _) => true
  | _ => false

/-- `os.path.exists`. -/
def pathExists (fs : FS) (p : Path) : Bool := (lookupFS fs p).isSome

/-- `os.path.isdir`. -/
def isDirAt (fs : FS) (p : Path) : Bool := isDirO (lookupFS fs p)

/-- Whether some child bears the given name. -/
def hasName : FS → String → Bool
  | [], _ => false
  | (m, _) :: r, n => if m = n then true else hasName r n

mutual
/-- Well-formedness of an entry: no directory anywhere below it lists two
children of the same name (real file systems satisfy this). -/
def wfE : FSEntry → Bool
  | .file _ => true
  | .dir cs => wfFS cs

/-- Well-formedness of a children list. -/
def wfFS : FS → Bool
  | [] => true
  | (n, e) :: r => wfE e && !hasName r n && wfFS r
end

/-- Overwrite (or create) the entry at a path whose parent directories all
exist; fails when an intermediate component is missing or is a file. -/
def setEntryFS : FS → Path → FSEntry → Except String FS
  | _, [], _ => .error "setEntry: empty path"
  | fs, [n], e => .ok (setChild fs n e)
  | fs, n :: m :: p, e =>
    match findChild fs n with
    | some (.dir cs) =>
      match setEntryFS cs (m :: p) e with
      | .ok cs' => .ok (setChild fs n (.dir cs'))
      | .error msg => .error msg
    | _ => .error "setEntry: missing parent directory"

/-- Remove the entry at a path; fails when the path does not resolve. -/
def removeFS : FS → Path → Except String FS
  | _, [] => .error "remove: empty path"
  | fs, [n] =>
    match findChild fs n with
    | some _ => .ok (removeChild fs n)
    | none => .error "remove: no such entry"
  | fs, n :: m :: p =>
    match findChild fs n with
    | some (.dir cs) =>
      match removeFS cs (m :: p) with
      | .ok cs' => .ok (setChild fs n (.dir cs'))
      | .error msg => .error msg
    | _ => .error "remove: no such entry"

/-- A fresh chain of directories along a path. -/
def mkChain : Path → FS
  | [] => []
  | n :: p => [(n, .dir (mkChain p))]

/-- `os.makedirs(path, exist_ok=True)`: create every missing directory along
the path; fails when an existing component is a regular file. -/
def makedirsFS : FS → Path → Except String FS
  | fs, [] => .ok fs
  | fs, n :: p =>
    match findChild fs n with
    | some (.dir cs) =>
      match makedirsFS cs p with
      | .ok cs' => .ok (setChild fs n (.dir cs'))
      | .error m => .error m
    | some (.file _) => .error "makedirs: not a directory"
    | none => .ok (setChild fs n (.dir (mkChain p)))

/-- `shutil.rmtree`: remove a directory tree; fails on a missing path or a
regular file. -/
def rmtreeFS (fs : FS) (p : Path) : Except String FS :=
  if isDirAt fs p then removeFS fs p else .error "rmtree: not a directory"

/-- Read a regular file. -/
def readFileFS (fs : FS) (p : Path) : Except String String :=
  match lookupFS fs p with
  | some (.file c) => .ok c
  | _ => .error "read: not a file"

/-- `open(p, 'w')` followed by a full write: overwrite or create a regular
file; fails when the target is a directory or the parent is missing. -/
def writeFileFS (fs : FS) (p : Path) (c : String) : Except String FS :=
  match lookupFS fs p with
  | some (.dir _) => .error "write: is a directory"
  | _ => setEntryFS fs p (.file c)

/-- `shutil.copy2(src, dst)`: copy a regular file; when `dst` is an existing
directory the file is copied into it under the source's base name. -/
def copy2FS (fs : FS) (src dst : Path) : Except String FS :=
  match lookupFS fs src with
  | some (.file c) =>
    if isDirAt fs dst then
      match src.getLast? with
      | some b => writeFileFS fs (dst ++ [b]) c
      | none => .error "copy2: empty source path"
    else writeFileFS fs dst c
  | _ => .error "copy2: not a regular file"

/-- `shutil.copytree(src, dst)`: deep-copy a directory; fails when `dst`
already exists; creates missing parent directories of `dst`. -/
def copytreeFS (fs : FS) (src dst : Path) : Except String FS :=
  match lookupFS fs src with
  | some (.dir cs) =>
    if pathExists fs dst then .error "copytree: destination exists"
    else
      match makedirsFS fs dst.dropLast with
      | .ok fs1 => setEntryFS fs1 dst (.dir cs)
      | .error m => .error m
  | _ => .error "copytree: not a directory"

/-- `shutil.move(src, dst)`: rename; when `dst` is an existing directory the
source is moved into it under its base name. -/
def moveFS (fs : FS) (src dst : Path) : Except String FS :=
  match lookupFS fs src with
  | some e =>
    let target := if isDirAt fs dst then dst ++ [src.getLastD ""] else dst
    match removeFS fs src with
    | .ok fs1 => setEntryFS fs1 target e
    | .error m => .error m
  | none => .error "move: no such path"

/-! ## The vendor zip archive -/

/-- One entry of the vendor zip's listing: its path components, plus `none`
for a directory entry (a name with a trailing slash) or `some content` for a
file entry. -/
structure ZipEntry where
  path : List String
  content : Option String

abbrev Archive := List ZipEntry

/-- The `top_dirs` scan of setup step 3: `name.split('/')[0]` over
`zf.namelist()`; the Python set is modelled as a deduplicated list. -/
def scanTopSegments (ar : Archive) : List String :=
  (ar.map fun e => e.path.headD "").dedup

/-- `zf.extractall`, one entry: materialise it, creating parent directories
as needed; fails when an existing regular file is in the way. -/
def insertZipEntry (fs : FS) (e : ZipEntry) : Except String FS :=
  match e.content with
  | none => makedirsFS fs e.path
  | some c =>
    match makedirsFS fs e.path.dropLast with
    | .ok fs1 => writeFileFS fs1 e.path c
    | .error m => .error m

/-- The children of the extraction directory after `zf.extractall`. -/
def extractTree (ar : Archive) : Except String FS :=
  ar.foldlM insertZipEntry []

/-- Setup step 4's scan of the extraction directory:
`for d in os.listdir(...): if os.path.isdir(...): ...; break` — the first
child, in listing order, that is a directory. -/
def firstDir : FS → Option (String × FSEntry)
  | [] => none
  | (n, e) :: r => if isDirB e then some (n, e) else firstDir r

/-- The extracted top-level directory that setup step 4 selects and moves
into place as the new vendor tree. -/
def selectedVendor (ar : Archive) : Option FSEntry :=
  match extractTree ar with
  | .ok t => (firstDir t).map fun x => x.2
  | .error _ => none

/-- Whether the vendor tree that a run on this archive installs carries a
directory at the given path relative to the vendor-tree root. -/
def vendorDirAt (ar : Archive) (rel : Path) : Bool :=
  match selectedVendor ar with
  | some e => isDirO (lookupE e rel)
  | none => false

/-! ## Text: Python `str.strip` and `str.replace` -/

/-- Python whitespace, for `str.strip` (the ASCII whitespace characters). -/
def isPyWS (c : Char) : Bool :=
  c = ' ' || c = '\t' || c = '\n' || c = '\r' || c = '\x0b' || c = '\x0c'

/-- Python `str.strip()`: drop leading and trailing whitespace. -/
def pyStrip (s : String) : String :=
  (((s.toList.dropWhile isPyWS).reverse.dropWhile isPyWS).reverse).asString

/-- Python `str.replace`, fuelled so that the recursion is structural:
left-to-right, non-overlapping replacement of every occurrence of `pat`.
Each step consumes at least one character, so fuel `s.length` is enough.
(For an empty `pat` this is the identity; Python differs there, but both
patterns used by setup step 6 are nonempty literals.) -/
def replaceFuel (pat rep : List Char) : Nat → List Char → List Char
  | _, [] => []
  | 0, s => s
  | fuel + 1, c :: cs =>
    if pat.isPrefixOf (c :: cs) && !pat.isEmpty then
      rep ++ replaceFuel pat rep fuel (List.drop (pat.length - 1) cs)
    else
      c :: replaceFuel pat rep fuel cs

/-- Python `s.replace(pat, rep)` on character lists. -/
def replaceAll (pat rep s : List Char) : List Char :=
  replaceFuel pat rep s.length s

/-- The line decomposition of a text: `n+1` lines separated by `n` newline
characters. Used only to state line-level properties of the patch. -/
def linesOf : List Char → List (List Char)
  | [] => [[]]
  | c :: cs =>
    if c = '\n' then [] :: linesOf cs
    else
      match linesOf cs with
      | [] => [[c]]
      | l :: ls => (c :: l) :: ls

/-! ## setup.py -/

def ESP32_VERSION : String := "2.0.17"

def ESP32_ZIP_FILE : String := "esp32-" ++ ESP32_VERSION ++ ".zip"

/-- The preserved-path set (`CUSTOM_FILES` of setup.py). -/
def CUSTOM_FILES : List Path :=
  [["esp32", "boards.txt"], ["esp32", "variants", "bpad_proto1"]]

def nameOrig : List Char := "name=ESP32 Arduino".toList

def nameRepl : List Char := "name=bpad proto1 (ESP32 v2.0.17)".toList

def versionOrig : List Char := ("version=" ++ ESP32_VERSION).toList

def versionRepl : List Char := "version=0.1.0".toList

/-- The two `content.replace(...)` calls of setup step 6, in source order:
first the name substitution, then the version substitution. -/
def patchContent (content : List Char) : List Char :=
  replaceAll versionOrig versionRepl (replaceAll nameOrig nameRepl content)

def patchContentS (s : String) : String := (patchContent s.toList).asString

/-- Result type of the setup steps: the final state, or a fatal nonzero exit
(an uncaught exception or `sys.exit(1)`) with the state at that moment. -/
abbrev SetupM := Except (String × FS) FS

/-- Run an operating-system call, recording the current state on failure. -/
def liftE (fs : FS) : Except String FS → SetupM
  | .ok fs' => .ok fs'
  | .error m => .error (m, fs)

/-- Sequencing of setup steps: a fatal exit aborts the remainder. -/
def seqE (x : SetupM) (f : FS → SetupM) : SetupM :=
  match x with
  | .ok fs => f fs
  | .error e => .error e

/-- The state a setup-step computation ends in, fatal or not. -/
def endFS : SetupM → FS
  | .ok fs => fs
  | .error (_, fs) => fs

/-- The loop body of setup step 2 for one preserved path `p`:
back it up under `_backup/p` when it exists. -/
def backupOne (fs : FS) (p : Path) : SetupM :=
  if pathExists fs p then
    seqE (liftE fs (makedirsFS fs (("_backup" :: p).dropLast))) fun fs1 =>
      if isDirAt fs1 p then
        seqE (if pathExists fs1 ("_backup" :: p) then
                liftE fs1 (rmtreeFS fs1 ("_backup" :: p))
              else .ok fs1) fun fs2 =>
          liftE fs2 (copytreeFS fs2 p ("_backup" :: p))
      else
        liftE fs1 (copy2FS fs1 p ("_backup" :: p))
  else .ok fs

/-- Setup step 2: `os.makedirs(backup_dir, exist_ok=True)` and the backup
loop over `CUSTOM_FILES`. -/
def backupPhase (fs : FS) : SetupM :=
  seqE (liftE fs (makedirsFS fs ["_backup"])) fun fs1 =>
    seqE (backupOne fs1 ["esp32", "boards.txt"]) fun fs2 =>
      backupOne fs2 ["esp32", "variants", "bpad_proto1"]

/-- Setup step 3: wipe a stale `_temp_extract`, then extract the archive
into a fresh `_temp_extract`. -/
def extractPhase (fs : FS) (ar : Archive) : SetupM :=
  seqE (if pathExists fs ["_temp_extract"] then
          liftE fs (rmtreeFS fs ["_temp_extract"])
        else .ok fs) fun fs1 =>
    match extractTree ar with
    | .ok t => .ok (setChild fs1 "_temp_extract" (.dir t))
    | .error m => .error (m, fs1)

/-- Setup step 4: select the first directory listed under `_temp_extract`
(`sys.exit(1)` when there is none), delete the existing vendor tree, move
the selected directory into place, and remove `_temp_extract`. -/
def replacePhase (fs : FS) : SetupM :=
  match lookupFS fs ["_temp_extract"] with
  | some (.dir t) =>
    match firstDir t with
    | none => .error ("ERROR: Could not find extracted directory!", fs)
    | some (d, _) =>
      seqE (if pathExists fs ["esp32"] then liftE fs (rmtreeFS fs ["esp32"])
            else .ok fs) fun fs1 =>
        seqE (liftE fs1 (moveFS fs1 ["_temp_extract", d] ["esp32"])) fun fs2 =>
          if pathExists fs2 ["_temp_extract"] then
            liftE fs2 (rmtreeFS fs2 ["_temp_extract"])
          else .ok fs2
  | _ => .error ("ERROR: missing extraction directory", fs)

/-- The loop body of setup step 5 for one preserved path `p`: restore it
from `_backup/p` when that backup exists. -/
def restoreOne (fs : FS) (p : Path) : SetupM :=
  if pathExists fs ("_backup" :: p) then
    if isDirAt fs ("_backup" :: p) then
      seqE (if pathExists fs p then liftE fs (rmtreeFS fs p) else .ok fs)
        fun fs1 => liftE fs1 (copytreeFS fs1 ("_backup" :: p) p)
    else
      liftE fs (copy2FS fs ("_backup" :: p) p)
  else .ok fs

/-- Setup step 5 plus its cleanup: the restore loop over `CUSTOM_FILES`,
then `shutil.rmtree(backup_dir)`. -/
def restorePhase (fs : FS) : SetupM :=
  seqE (restoreOne fs ["esp32", "boards.txt"]) fun fs1 =>
    seqE (restoreOne fs1 ["esp32", "variants", "bpad_proto1"]) fun fs2 =>
      liftE fs2 (rmtreeFS fs2 ["_backup"])

/-- Setup step 6: patch `esp32/platform.txt` in place when it exists;
a missing file only prints a warning. -/
def patchPhase (fs : FS) : SetupM :=
  if pathExists fs ["esp32", "platform.txt"] then
    match readFileFS fs ["esp32", "platform.txt"] with
    | .ok content =>
      liftE fs (writeFileFS fs ["esp32", "platform.txt"] (patchContentS content))
    | .error m => .error (m, fs)
  else .ok fs

/-- Outcome of a setup run: the final state, whether the network fetch was
performed, and `some message` exactly when the run exited nonzero. -/
structure SetupOutcome where
  fs : FS
  fetched : Bool
  errMsg : Option String

/-- Setup step 1: when the cached archive file is absent, download it.  The
downloaded file's raw bytes are not interpreted beyond the `Archive`
parameter of the later steps, so they are recorded with an opaque marker
content. -/
def fetchedFS (fs0 : FS) : FS :=
  if !(pathExists fs0 [ESP32_ZIP_FILE]) then
    setChild fs0 ESP32_ZIP_FILE (.file "<zip bytes>")
  else fs0

/-- Setup steps 2–6 in source order. -/
def setupSteps (fs1 : FS) (ar : Archive) : SetupM :=
  seqE (backupPhase fs1) fun a =>
    seqE (extractPhase a ar) fun b =>
      seqE (replacePhase b) fun c =>
        seqE (restorePhase c) patchPhase

/-- One full run of setup.py's `main()`.  `fs0` is the initial state of the
script directory; `ar` is the listing of the zip archive that step 3 opens
at the cached path (downloaded by step 1 when absent). -/
def setupRun (fs0 : FS) (ar : Archive) : SetupOutcome :=
  match setupSteps (fetchedFS fs0) ar with
  | .ok fsF => ⟨fsF, !(pathExists fs0 [ESP32_ZIP_FILE]), none⟩
  | .error (m, fsE) => ⟨fsE, !(pathExists fs0 [ESP32_ZIP_FILE]), some m⟩

/-! ## build.py -/

/-- The failures of the `git rev-parse` subprocess that build.py catches:
a nonzero exit of the tool (`subprocess.CalledProcessError`, e.g. not a
repository) and an unavailable tool (`FileNotFoundError`). -/
inductive GitErr where
  | calledProcessError (returncode : Nat)
  | fileNotFound

/-- `get_git_short_sha`: `result.stdout.strip()` on success, the fixed
placeholder on any failure of the lookup. -/
def get_git_short_sha : Except GitErr String → String
  | .ok out => pyStrip out
  | .error _ => "unknown"

def filesOf (pre : Path) (cs : FS) : List (Path × String) :=
  cs.filterMap fun x =>
    match x.2 with
    | .file c => some (pre ++ [x.1], c)
    | .dir _ => none

mutual
/-- The `os.walk` loop of `create_zip` below one entry: every regular file
under the tree, under archive names `relpath(file_path, dirname(source_dir))`
— a directory's own files first, then its subdirectories, both in listing
order.  Directories themselves get no archive entry.  `os.walk` of a
non-directory yields nothing. -/
def walkE (pre : Path) : FSEntry → List (Path × String)
  | .file _ => []
  | .dir cs => filesOf pre cs ++ walkSub pre cs

def walkSub (pre : Path) : FS → List (Path × String)
  | [] => []
  | (n, e) :: r => walkE (pre ++ [n]) e ++ walkSub pre r
end

/-- The archive entries `create_zip(ESP32_DIR, ...)` writes: the walk is
rooted at the vendor tree and names are anchored one level above it, so
every name starts with the component `esp32`. -/
def create_zip_entries (vendor : FSEntry) : List (Path × String) :=
  walkE ["esp32"] vendor

/-- A stand-in for the byte serialisation of the zip file written to disk
(the exact zip format is not modelled; claims about the archive's content
are stated on the entry list itself). -/
def encodeZipData (es : List (Path × String)) : String :=
  es.foldr (fun e acc => String.intercalate "/" e.1 ++ "\x00" ++ e.2 ++ "\x01" ++ acc) ""

inductive BuildStatus where
  | ok
  | fatal (msg : String)
deriving DecidableEq

/-- Outcome of a build run: final state, exit status, the composed archive
filename (once composed), and the entries of the archive that was written
(`none` when no archive was written). -/
structure BuildOutcome where
  fs : FS
  status : BuildStatus
  archiveName : Option String
  zipData : Option (List (Path × String))

/-- `f"bpad_proto1-{version_tag}-{short_sha}.zip"` with
`version_tag = f"v{version}"`. -/
def buildZipName (version short_sha : String) : String :=
  "bpad_proto1-" ++ ("v" ++ version) ++ "-" ++ short_sha ++ ".zip"

/-- One full run of build.py's `main()`.  `versionInput` is the operator's
answer to the version prompt; `git` is the outcome of the `git rev-parse`
subprocess.  The release listing printed between the directory creation and
`create_zip` reads sizes only and is omitted. -/
def buildRun (fs : FS) (versionInput : String) (git : Except GitErr String) :
    BuildOutcome :=
  if !(pathExists fs ["esp32"]) then
    ⟨fs, .fatal "ERROR: esp32/ directory not found!", none, none⟩
  else if !(pathExists fs ["esp32", "platform.txt"]) then
    ⟨fs, .fatal "ERROR: esp32/platform.txt not found!", none, none⟩
  else
    let version := pyStrip versionInput
    if version = "" then
      ⟨fs, .fatal "ERROR: Version cannot be empty!", none, none⟩
    else
      let zip_filename := buildZipName version (get_git_short_sha git)
      match makedirsFS fs ["release"] with
      | .error m => ⟨fs, .fatal m, some zip_filename, none⟩
      | .ok fs1 =>
        match lookupFS fs1 ["esp32"] with
        | some vendor =>
          let entries := create_zip_entries vendor
          match writeFileFS fs1 ["release", zip_filename] (encodeZipData entries) with
          | .ok fs2 => ⟨fs2, .ok, some zip_filename, some entries⟩
          | .error m => ⟨fs1, .fatal m, some zip_filename, none⟩
        | none => ⟨fs1, .fatal "ERROR: esp32/ directory not found!", some zip_filename, none⟩

/-- The full outcome space of the `subprocess.run(["git", "rev-parse",
"--short", "HEAD"], ...)` call: success with its stdout, one of the two
exception classes that `get_git_short_sha`'s `except` clause catches, or
any other exception raised by the call (for example `PermissionError` when
the tool exists but is not executable), which no handler in build.py
catches. -/
inductive SubprocOutcome where
  | success (stdout : String)
  | caught (e : GitErr)
  | uncaught (exc : String)

/-- `get_git_short_sha` over the full outcome space: the `try` body returns
`result.stdout.strip()`, the `except (CalledProcessError, FileNotFoundError)`
clause returns the fixed placeholder, and any other exception propagates
out of the function uncaught. -/
def gitShortShaFull : SubprocOutcome → Except String String
  | .success out => .ok (pyStrip out)
  | .caught _ => .ok "unknown"
  | .uncaught exc => .error exc

/-- One full run of build.py's `main()` over the full outcome space of the
`git rev-parse` subprocess.  An exception that `get_git_short_sha` does not
catch propagates out of `main` and terminates the script nonzero: it is
raised after the precondition checks and the version prompt but before the
release directory is created or anything is written. -/
def buildRunFull (fs : FS) (versionInput : String) (git : SubprocOutcome) :
    BuildOutcome :=
  if !(pathExists fs ["esp32"]) then
    ⟨fs, .fatal "ERROR: esp32/ directory not found!", none, none⟩
  else if !(pathExists fs ["esp32", "platform.txt"]) then
    ⟨fs, .fatal "ERROR: esp32/platform.txt not found!", none, none⟩
  else
    let version := pyStrip versionInput
    if version = "" then
      ⟨fs, .fatal "ERROR: Version cannot be empty!", none, none⟩
    else
      match gitShortShaFull git with
      | .error exc => ⟨fs, .fatal exc, none, none⟩
      | .ok short_sha =>
        let zip_filename := buildZipName version short_sha
        match makedirsFS fs ["release"] with
        | .error m => ⟨fs, .fatal m, some zip_filename, none⟩
        | .ok fs1 =>
          match lookupFS fs1 ["esp32"] with
          | some vendor =>
            let entries := create_zip_entries vendor
            match writeFileFS fs1 ["release", zip_filename] (encodeZipData entries) with
            | .ok fs2 => ⟨fs2, .ok, some zip_filename, some entries⟩
            | .error m => ⟨fs1, .fatal m, some zip_filename, none⟩
          | none => ⟨fs1, .fatal "ERROR: esp32/ directory not found!", some zip_filename, none⟩

/-! ## Lemmas: children lists -/

theorem findChild_setChild (fs : FS) (n : String) (e : FSEntry) (m : String) :
    findChild (setChild fs n e) m = if m = n then some e else findChild fs m := by
  induction fs with
  | nil =>
    by_cases h : m = n
    · subst h; simp [setChild, findChild]
    · simp [setChild, findChild, h, Ne.symm h]
  | cons hd tl ih =>
    obtain ⟨a, x⟩ := hd
    by_cases han : a = n
    · subst han
      by_cases h : m = a
      · subst h; simp [setChild, findChild]
      · simp [setChild, findChild, h, Ne.symm h]
    · by_cases h : m = a
      · subst h
        simp [setChild, findChild, han, Ne.symm han]
      · have h' : a ≠ m := Ne.symm h
        simp [setChild, findChild, h, h', han, ih]

theorem setChild_self {fs : FS} {n : String} {e : FSEntry}
    (h : findChild fs n = some e) : setChild fs n e = fs := by
  induction fs with
  | nil => simp [findChild] at h
  | cons hd tl ih =>
    obtain ⟨a, x⟩ := hd
    by_cases han : a = n
    · subst han
      simp [findChild] at h
      simp [setChild, h]
    · simp [findChild, han] at h
      simp [setChild, han, ih h]

theorem findChild_removeChild {fs : FS} {n m : String} (h : m ≠ n) :
    findChild (removeChild fs n) m = findChild fs m := by
  induction fs with
  | nil => simp [removeChild]
  | cons hd tl ih =>
    obtain ⟨a, x⟩ := hd
    by_cases han : a = n
    · subst han
      simp [removeChild, findChild, Ne.symm h]
    · by_cases hma : m = a
      · subst hma; simp [removeChild, findChild, han]
      · have hma' : a ≠ m := Ne.symm hma
        simp [removeChild, findChild, han, hma, hma', ih]

theorem hasName_setChild (fs : FS) (n : String) (e : FSEntry) (m : String) :
    hasName (setChild fs n e) m = if m = n then true else hasName fs m := by
  induction fs with
  | nil =>
    by_cases h : m = n
    · subst h; simp [setChild, hasName]
    · simp [setChild, hasName, h, Ne.symm h]
  | cons hd tl ih =>
    obtain ⟨a, x⟩ := hd
    by_cases han : a = n
    · subst han
      by_cases h : m = a
      · subst h; simp [setChild, hasName]
      · simp [setChild, hasName, h, Ne.symm h]
    · by_cases h : m = a
      · subst h; simp [setChild, hasName, han, Ne.symm han]
      · have h' : a ≠ m := Ne.symm h
        simp [setChild, hasName, h, h', han, ih]

theorem hasName_removeChild_mono {fs : FS} {n m : String}
    (h : hasName (removeChild fs n) m = true) : hasName fs m = true := by
  induction fs with
  | nil => simp [removeChild, hasName] at h
  | cons hd tl ih =>
    obtain ⟨a, x⟩ := hd
    by_cases hma : m = a
    · simp [hasName, hma]
    · have hma' : a ≠ m := Ne.symm hma
      simp only [hasName, if_neg hma']
      by_cases han : a = n
      · simp only [removeChild, if_pos han] at h
        exact h
      · simp only [removeChild, if_neg han, hasName, if_neg hma'] at h
        exact ih h

theorem findChild_of_hasName_false {fs : FS} {n : String}
    (h : hasName fs n = false) : findChild fs n = none := by
  induction fs with
  | nil => simp [findChild]
  | cons hd tl ih =>
    obtain ⟨a, x⟩ := hd
    by_cases hna : a = n
    · simp [hasName, hna] at h
    · simp only [hasName, if_neg hna] at h
      have hna' : n ≠ a := Ne.symm hna
      simp [findChild, hna, ih h]

/-! ## Lemmas: well-formedness -/

theorem wfFS_cons {n : String} {e : FSEntry} {r : FS} :
    wfFS ((n, e) :: r) = true ↔
      wfE e = true ∧ hasName r n = false ∧ wfFS r = true := by
  simp [wfFS, Bool.and_eq_true, Bool.not_eq_true', and_assoc]

theorem wf_findChild {fs : FS} {n : String} {e : FSEntry}
    (h : findChild fs n = some e) (hwf : wfFS fs = true) : wfE e = true := by
  induction fs with
  | nil => simp [findChild] at h
  | cons hd tl ih =>
    obtain ⟨a, x⟩ := hd
    obtain ⟨h1, _, h3⟩ := wfFS_cons.mp hwf
    by_cases han : a = n
    · simp [findChild, han] at h; exact h ▸ h1
    · simp [findChild, han] at h; exact ih h h3

theorem wf_setChild {fs : FS} {n : String} {e : FSEntry}
    (hwf : wfFS fs = true) (he : wfE e = true) :
    wfFS (setChild fs n e) = true := by
  induction fs with
  | nil => simp [setChild, wfFS_cons, he, hasName, wfFS]
  | cons hd tl ih =>
    obtain ⟨a, x⟩ := hd
    obtain ⟨h1, h2, h3⟩ := wfFS_cons.mp hwf
    by_cases han : a = n
    · subst han
      simp only [setChild, if_pos rfl]
      exact wfFS_cons.mpr ⟨he, h2, h3⟩
    · simp only [setChild, if_neg han]
      refine wfFS_cons.mpr ⟨h1, ?_, ih h3⟩
      rw [hasName_setChild, if_neg han]
      exact h2

theorem wf_removeChild {fs : FS} {n : String} (hwf : wfFS fs = true) :
    wfFS (removeChild fs n) = true := by
  induction fs with
  | nil => simpa [removeChild] using hwf
  | cons hd tl ih =>
    obtain ⟨a, x⟩ := hd
    obtain ⟨h1, h2, h3⟩ := wfFS_cons.mp hwf
    by_cases han : a = n
    · simp only [removeChild, if_pos han]
      exact h3
    · simp only [removeChild, if_neg han]
      refine wfFS_cons.mpr ⟨h1, ?_, ih h3⟩
      cases hr : hasName (removeChild tl n) a with
      | false => rfl
      | true => rw [hasName_removeChild_mono hr] at h2; exact h2

theorem findChild_removeChild_self {fs : FS} {n : String}
    (hwf : wfFS fs = true) : findChild (removeChild fs n) n = none := by
  induction fs with
  | nil => simp [removeChild, findChild]
  | cons hd tl ih =>
    obtain ⟨a, x⟩ := hd
    obtain ⟨_, h2, h3⟩ := wfFS_cons.mp hwf
    by_cases han : a = n
    · subst han
      simp only [removeChild, if_pos rfl]
      exact findChild_of_hasName_false h2
    · simp only [removeChild, if_neg han, findChild, if_neg han]
      exact ih h3

theorem firstDir_hasName {fs : FS} {d : String} {e : FSEntry}
    (h : firstDir fs = some (d, e)) : hasName fs d = true := by
  induction fs with
  | nil => simp [firstDir] at h
  | cons hd tl ih =>
    obtain ⟨a, x⟩ := hd
    by_cases hx : isDirB x = true
    · simp [firstDir, hx] at h
      simp [hasName, h.1]
    · simp only [firstDir, if_neg hx] at h
      by_cases hda : a = d
      · simp [hasName, hda]
      · simp [hasName, hda, ih h]

theorem wf_firstDir_findChild {fs : FS} {d : String} {e : FSEntry}
    (hwf : wfFS fs = true) (h : firstDir fs = some (d, e)) :
    findChild fs d = some e := by
  induction fs with
  | nil => simp [firstDir] at h
  | cons hd tl ih =>
    obtain ⟨a, x⟩ := hd
    obtain ⟨_, h2, h3⟩ := wfFS_cons.mp hwf
    by_cases hx : isDirB x = true
    · simp [firstDir, hx] at h
      simp [findChild, h.1, h.2]
    · simp only [firstDir, if_neg hx] at h
      have hda : a ≠ d := by
        intro hda
        rw [← hda] at h
        rw [firstDir_hasName h] at h2
        exact Bool.noConfusion h2
      simp [findChild, hda, ih h3 h]

/-! ## Lemmas: path-level lookups -/

/-- Two paths are disjoint when neither is a prefix of the other; an
operation confined below one of them cannot affect a lookup at the other. -/
def pathDisj (p q : Path) : Prop := ¬ p <+: q ∧ ¬ q <+: p

instance (p q : Path) : Decidable (pathDisj p q) := by
  unfold pathDisj; infer_instance

theorem pathDisj_cons {n : String} {p q : Path}
    (h : pathDisj (n :: p) (n :: q)) : pathDisj p q := by
  constructor
  · exact fun hp => h.1 (List.cons_prefix_cons.mpr ⟨rfl, hp⟩)
  · exact fun hq => h.2 (List.cons_prefix_cons.mpr ⟨rfl, hq⟩)

theorem lookupE_append (e : FSEntry) (a b : Path) :
    lookupE e (a ++ b) = (lookupE e a).bind fun x => lookupE x b := by
  induction a generalizing e with
  | nil => simp [lookupE]
  | cons n a' ih =>
    cases e with
    | file c => simp [lookupE]
    | dir cs =>
      simp only [List.cons_append, lookupE]
      cases hfc : findChild cs n with
      | none => simp
      | some x => simp [ih]

theorem lookupFS_cons (fs : FS) (n : String) (q : Path) :
    lookupFS fs (n :: q) =
      match findChild fs n with
      | some e => lookupE e q
      | none => none := rfl

theorem lookupFS_setChild (fs : FS) (n : String) (e : FSEntry) (m : String)
    (q : Path) :
    lookupFS (setChild fs n e) (m :: q) =
      if m = n then lookupE e q else lookupFS fs (m :: q) := by
  rw [lookupFS_cons, lookupFS_cons, findChild_setChild]
  by_cases h : m = n <;> simp [h]

theorem setEntryFS_ok_lookup_same {fs fs' : FS} {p : Path} {e : FSEntry}
    (h : setEntryFS fs p e = .ok fs') : lookupFS fs' p = some e := by
  induction p generalizing fs fs' with
  | nil => simp [setEntryFS] at h
  | cons n p' ih =>
    cases p' with
    | nil =>
      simp only [setEntryFS, Except.ok.injEq] at h
      subst h
      simp [lookupFS_setChild, lookupE]
    | cons m p'' =>
      cases hfc : findChild fs n with
      | none => simp [setEntryFS, hfc] at h
      | some x =>
        cases x with
        | file c => simp [setEntryFS, hfc] at h
        | dir cs =>
          cases hrec : setEntryFS cs (m :: p'') e with
          | error msg => simp [setEntryFS, hfc, hrec] at h
          | ok cs' =>
            simp only [setEntryFS, hfc, hrec, Except.ok.injEq] at h
            subst h
            rw [lookupFS_setChild, if_pos rfl]
            exact ih hrec

theorem setEntryFS_ok_lookup_disj {fs fs' : FS} {p : Path} {e : FSEntry}
    (h : setEntryFS fs p e = .ok fs') {q : Path} (hd : pathDisj p q) :
    lookupFS fs' q = lookupFS fs q := by
  induction p generalizing fs fs' q with
  | nil => simp [setEntryFS] at h
  | cons n p' ih =>
    cases q with
    | nil => exact absurd List.nil_prefix hd.2
    | cons m q' =>
      by_cases hmn : m = n
      · subst hmn
        cases p' with
        | nil =>
          exact absurd (List.cons_prefix_cons.mpr ⟨rfl, List.nil_prefix⟩) hd.1
        | cons k p'' =>
          cases hfc : findChild fs m with
          | none => simp [setEntryFS, hfc] at h
          | some x =>
            cases x with
            | file c => simp [setEntryFS, hfc] at h
            | dir cs =>
              cases hrec : setEntryFS cs (k :: p'') e with
              | error msg => simp [setEntryFS, hfc, hrec] at h
              | ok cs' =>
                simp only [setEntryFS, hfc, hrec, Except.ok.injEq] at h
                subst h
                rw [lookupFS_setChild, if_pos rfl, lookupFS_cons, hfc]
                exact ih hrec (pathDisj_cons hd)
      · cases p' with
        | nil =>
          simp only [setEntryFS, Except.ok.injEq] at h
          subst h
          rw [lookupFS_setChild, if_neg hmn]
        | cons k p'' =>
          cases hfc : findChild fs n with
          | none => simp [setEntryFS, hfc] at h
          | some x =>
            cases x with
            | file c => simp [setEntryFS, hfc] at h
            | dir cs =>
              cases hrec : setEntryFS cs (k :: p'') e with
              | error msg => simp [setEntryFS, hfc, hrec] at h
              | ok cs' =>
                simp only [setEntryFS, hfc, hrec, Except.ok.injEq] at h
                subst h
                rw [lookupFS_setChild, if_neg hmn]

theorem removeFS_ok_lookup_disj {fs fs' : FS} {p : Path}
    (h : removeFS fs p = .ok fs') {q : Path} (hd : pathDisj p q) :
    lookupFS fs' q = lookupFS fs q := by
  induction p generalizing fs fs' q with
  | nil => simp [removeFS] at h
  | cons n p' ih =>
    cases q with
    | nil => exact absurd List.nil_prefix hd.2
    | cons m q' =>
      by_cases hmn : m = n
      · subst hmn
        cases p' with
        | nil =>
          exact absurd (List.cons_prefix_cons.mpr ⟨rfl, List.nil_prefix⟩) hd.1
        | cons k p'' =>
          cases hfc : findChild fs m with
          | none => simp [removeFS, hfc] at h
          | some x =>
            cases x with
            | file c => simp [removeFS, hfc] at h
            | dir cs =>
              cases hrec : removeFS cs (k :: p'') with
              | error msg => simp [removeFS, hfc, hrec] at h
              | ok cs' =>
                simp only [removeFS, hfc, hrec, Except.ok.injEq] at h
                subst h
                rw [lookupFS_setChild, if_pos rfl, lookupFS_cons, hfc]
                exact ih hrec (pathDisj_cons hd)
      · cases p' with
        | nil =>
          cases hfc : findChild fs n with
          | none => simp [removeFS, hfc] at h
          | some x =>
            simp only [removeFS, hfc, Except.ok.injEq] at h
            subst h
            rw [lookupFS_cons, lookupFS_cons, findChild_removeChild hmn]
        | cons k p'' =>
          cases hfc : findChild fs n with
          | none => simp [removeFS, hfc] at h
          | some x =>
            cases x with
            | file c => simp [removeFS, hfc] at h
            | dir cs =>
              cases hrec : removeFS cs (k :: p'') with
              | error msg => simp [removeFS, hfc, hrec] at h
              | ok cs' =>
                simp only [removeFS, hfc, hrec, Except.ok.injEq] at h
                subst h
                rw [lookupFS_setChild, if_neg hmn]

theorem lookupFS_mkChain {p q : Path} (h : ¬ q <+: p) :
    lookupFS (mkChain p) q = none := by
  induction p generalizing q with
  | nil =>
    cases q with
    | nil => exact absurd List.nil_prefix h
    | cons m q' => simp [mkChain, lookupFS_cons, findChild]
  | cons n p' ih =>
    cases q with
    | nil => exact absurd List.nil_prefix h
    | cons m q' =>
      by_cases hmn : m = n
      · subst hmn
        rw [lookupFS_cons]
        simp only [mkChain, findChild, if_pos rfl]
        exact ih fun hq => h (List.cons_prefix_cons.mpr ⟨rfl, hq⟩)
      · rw [lookupFS_cons]
        simp [mkChain, findChild, Ne.symm hmn]

theorem makedirsFS_ok_lookup_disj {fs fs' : FS} {p : Path}
    (h : makedirsFS fs p = .ok fs') {q : Path} (hd : pathDisj p q) :
    lookupFS fs' q = lookupFS fs q := by
  induction p generalizing fs fs' q with
  | nil => simp only [makedirsFS, Except.ok.injEq] at h; subst h; rfl
  | cons n p' ih =>
    cases q with
    | nil => exact absurd List.nil_prefix hd.2
    | cons m q' =>
      by_cases hmn : m = n
      · subst hmn
        cases hfc : findChild fs m with
        | none =>
          simp only [makedirsFS, hfc, Except.ok.injEq] at h
          subst h
          rw [lookupFS_setChild, if_pos rfl, lookupFS_cons, hfc]
          exact lookupFS_mkChain (pathDisj_cons hd).2
        | some x =>
          cases x with
          | file c => simp [makedirsFS, hfc] at h
          | dir cs =>
            cases hrec : makedirsFS cs p' with
            | error msg => simp [makedirsFS, hfc, hrec] at h
            | ok cs' =>
              simp only [makedirsFS, hfc, hrec, Except.ok.injEq] at h
              subst h
              rw [lookupFS_setChild, if_pos rfl, lookupFS_cons, hfc]
              exact ih hrec (pathDisj_cons hd)
      · cases hfc : findChild fs n with
        | none =>
          simp only [makedirsFS, hfc, Except.ok.injEq] at h
          subst h
          rw [lookupFS_setChild, if_neg hmn]
        | some x =>
          cases x with
          | file c => simp [makedirsFS, hfc] at h
          | dir cs =>
            cases hrec : makedirsFS cs p' with
            | error msg => simp [makedirsFS, hfc, hrec] at h
            | ok cs' =>
              simp only [makedirsFS, hfc, hrec, Except.ok.injEq] at h
              subst h
              rw [lookupFS_setChild, if_neg hmn]

theorem writeFileFS_ok_setEntry {fs fs' : FS} {p : Path} {c : String}
    (h : writeFileFS fs p c = .ok fs') : setEntryFS fs p (.file c) = .ok fs' := by
  unfold writeFileFS at h
  cases hl : lookupFS fs p with
  | none => rw [hl] at h; exact h
  | some x =>
    cases x with
    | file c0 => rw [hl] at h; exact h
    | dir cs => rw [hl] at h; exact Except.noConfusion h

theorem writeFileFS_ok_lookup_same {fs fs' : FS} {p : Path} {c : String}
    (h : writeFileFS fs p c = .ok fs') : lookupFS fs' p = some (.file c) :=
  setEntryFS_ok_lookup_same (writeFileFS_ok_setEntry h)

theorem writeFileFS_ok_lookup_disj {fs fs' : FS} {p : Path} {c : String}
    (h : writeFileFS fs p c = .ok fs') {q : Path} (hd : pathDisj p q) :
    lookupFS fs' q = lookupFS fs q :=
  setEntryFS_ok_lookup_disj (writeFileFS_ok_setEntry h) hd

theorem rmtreeFS_ok_removeFS {fs fs' : FS} {p : Path}
    (h : rmtreeFS fs p = .ok fs') : removeFS fs p = .ok fs' := by
  unfold rmtreeFS at h
  by_cases hdir : isDirAt fs p = true
  · rwa [if_pos hdir] at h
  · rw [if_neg hdir] at h; exact Except.noConfusion h

theorem rmtreeFS_ok_lookup_disj {fs fs' : FS} {p : Path}
    (h : rmtreeFS fs p = .ok fs') {q : Path} (hd : pathDisj p q) :
    lookupFS fs' q = lookupFS fs q :=
  removeFS_ok_lookup_disj (rmtreeFS_ok_removeFS h) hd

/-! ## Lemmas: well-formedness along path operations -/

theorem wfE_dir (cs : FS) : wfE (.dir cs) = wfFS cs := by simp [wfE]

theorem wfE_file (c : String) : wfE (.file c) = true := by simp [wfE]

theorem wf_mkChain (p : Path) : wfFS (mkChain p) = true := by
  induction p with
  | nil => rfl
  | cons n p' ih => simp [mkChain, wfFS_cons, hasName, wfFS, wfE_dir, ih]

theorem wf_lookupE {x e : FSEntry} {p : Path}
    (h : lookupE x p = some e) (hwf : wfE x = true) : wfE e = true := by
  induction p generalizing x with
  | nil => simp [lookupE] at h; exact h ▸ hwf
  | cons n p' ih =>
    cases x with
    | file c => simp [lookupE] at h
    | dir cs =>
      rw [lookupE] at h
      cases hfc : findChild cs n with
      | none => rw [hfc] at h; exact Option.noConfusion h
      | some y =>
        rw [hfc] at h
        exact ih h (wf_findChild hfc (by rwa [wfE_dir] at hwf))

theorem wf_lookupFS {fs : FS} {e : FSEntry} {p : Path}
    (h : lookupFS fs p = some e) (hwf : wfFS fs = true) : wfE e = true :=
  wf_lookupE h (by rwa [wfE_dir])

theorem wf_setEntryFS {fs fs' : FS} {p : Path} {e : FSEntry}
    (h : setEntryFS fs p e = .ok fs') (hwf : wfFS fs = true)
    (he : wfE e = true) : wfFS fs' = true := by
  induction p generalizing fs fs' with
  | nil => simp [setEntryFS] at h
  | cons n p' ih =>
    cases p' with
    | nil =>
      simp only [setEntryFS, Except.ok.injEq] at h
      subst h
      exact wf_setChild hwf he
    | cons m p'' =>
      cases hfc : findChild fs n with
      | none => simp [setEntryFS, hfc] at h
      | some x =>
        cases x with
        | file c => simp [setEntryFS, hfc] at h
        | dir cs =>
          cases hrec : setEntryFS cs (m :: p'') e with
          | error msg => simp [setEntryFS, hfc, hrec] at h
          | ok cs' =>
            simp only [setEntryFS, hfc, hrec, Except.ok.injEq] at h
            subst h
            have hcs : wfFS cs = true := by
              rw [← wfE_dir]; exact wf_findChild hfc hwf
            exact wf_setChild hwf (by rw [wfE_dir]; exact ih hrec hcs)

theorem wf_removeFS {fs fs' : FS} {p : Path}
    (h : removeFS fs p = .ok fs') (hwf : wfFS fs = true) : wfFS fs' = true := by
  induction p generalizing fs fs' with
  | nil => simp [removeFS] at h
  | cons n p' ih =>
    cases p' with
    | nil =>
      cases hfc : findChild fs n with
      | none => simp [removeFS, hfc] at h
      | some x =>
        simp only [removeFS, hfc, Except.ok.injEq] at h
        subst h
        exact wf_removeChild hwf
    | cons m p'' =>
      cases hfc : findChild fs n with
      | none => simp [removeFS, hfc] at h
      | some x =>
        cases x with
        | file c => simp [removeFS, hfc] at h
        | dir cs =>
          cases hrec : removeFS cs (m :: p'') with
          | error msg => simp [removeFS, hfc, hrec] at h
          | ok cs' =>
            simp only [removeFS, hfc, hrec, Except.ok.injEq] at h
            subst h
            have hcs : wfFS cs = true := by
              rw [← wfE_dir]; exact wf_findChild hfc hwf
            exact wf_setChild hwf (by rw [wfE_dir]; exact ih hrec hcs)

theorem wf_makedirsFS {fs fs' : FS} {p : Path}
    (h : makedirsFS fs p = .ok fs') (hwf : wfFS fs = true) : wfFS fs' = true := by
  induction p generalizing fs fs' with
  | nil => simp only [makedirsFS, Except.ok.injEq] at h; exact h ▸ hwf
  | cons n p' ih =>
    cases hfc : findChild fs n with
    | none =>
      simp only [makedirsFS, hfc, Except.ok.injEq] at h
      subst h
      exact wf_setChild hwf (by rw [wfE_dir]; exact wf_mkChain p')
    | some x =>
      cases x with
      | file c => simp [makedirsFS, hfc] at h
      | dir cs =>
        cases hrec : makedirsFS cs p' with
        | error msg => simp [makedirsFS, hfc, hrec] at h
        | ok cs' =>
          simp only [makedirsFS, hfc, hrec, Except.ok.injEq] at h
          subst h
          have hcs : wfFS cs = true := by
            rw [← wfE_dir]; exact wf_findChild hfc hwf
          exact wf_setChild hwf (by rw [wfE_dir]; exact ih hrec hcs)

theorem wf_writeFileFS {fs fs' : FS} {p : Path} {c : String}
    (h : writeFileFS fs p c = .ok fs') (hwf : wfFS fs = true) : wfFS fs' = true :=
  wf_setEntryFS (writeFileFS_ok_setEntry h) hwf (wfE_file c)

theorem wf_rmtreeFS {fs fs' : FS} {p : Path}
    (h : rmtreeFS fs p = .ok fs') (hwf : wfFS fs = true) : wfFS fs' = true :=
  wf_removeFS (rmtreeFS_ok_removeFS h) hwf

theorem wf_copy2FS {fs fs' : FS} {src dst : Path}
    (h : copy2FS fs src dst = .ok fs') (hwf : wfFS fs = true) : wfFS fs' = true := by
  unfold copy2FS at h
  cases hl : lookupFS fs src with
  | none => rw [hl] at h; exact Except.noConfusion h
  | some x =>
    cases x with
    | dir cs => rw [hl] at h; exact Except.noConfusion h
    | file c =>
      rw [hl] at h
      dsimp only at h
      by_cases hdir : isDirAt fs dst = true
      · rw [if_pos hdir] at h
        cases hgl : src.getLast? with
        | none => rw [hgl] at h; exact Except.noConfusion h
        | some b => rw [hgl] at h; exact wf_writeFileFS h hwf
      · rw [if_neg hdir] at h
        exact wf_writeFileFS h hwf

theorem wf_copytreeFS {fs fs' : FS} {src dst : Path}
    (h : copytreeFS fs src dst = .ok fs') (hwf : wfFS fs = true) :
    wfFS fs' = true := by
  unfold copytreeFS at h
  cases hl : lookupFS fs src with
  | none => rw [hl] at h; exact Except.noConfusion h
  | some x =>
    cases x with
    | file c => rw [hl] at h; exact Except.noConfusion h
    | dir cs =>
      rw [hl] at h
      dsimp only at h
      by_cases hex : pathExists fs dst = true
      · rw [if_pos hex] at h; exact Except.noConfusion h
      · rw [if_neg hex] at h
        cases hmk : makedirsFS fs dst.dropLast with
        | error msg => rw [hmk] at h; exact Except.noConfusion h
        | ok fs1 =>
          rw [hmk] at h
          exact wf_setEntryFS h (wf_makedirsFS hmk hwf) (wf_lookupFS hl hwf)

theorem wf_moveFS {fs fs' : FS} {src dst : Path}
    (h : moveFS fs src dst = .ok fs') (hwf : wfFS fs = true) : wfFS fs' = true := by
  unfold moveFS at h
  cases hl : lookupFS fs src with
  | none => rw [hl] at h; exact Except.noConfusion h
  | some e =>
    rw [hl] at h
    cases hrm : removeFS fs src with
    | error msg => simp only [hrm] at h; exact Except.noConfusion h
    | ok fs1 =>
      simp only [hrm] at h
      exact wf_setEntryFS h (wf_removeFS hrm hwf) (wf_lookupFS hl hwf)

theorem wf_insertZipEntry {fs fs' : FS} {e : ZipEntry}
    (h : insertZipEntry fs e = .ok fs') (hwf : wfFS fs = true) :
    wfFS fs' = true := by
  unfold insertZipEntry at h
  cases hc : e.content with
  | none => rw [hc] at h; exact wf_makedirsFS h hwf
  | some c =>
    rw [hc] at h
    cases hmk : makedirsFS fs e.path.dropLast with
    | error msg => rw [hmk] at h; exact Except.noConfusion h
    | ok fs1 =>
      rw [hmk] at h
      exact wf_writeFileFS h (wf_makedirsFS hmk hwf)

theorem wf_foldl_insertZip :
    ∀ (l : List ZipEntry) (fs t : FS), wfFS fs = true →
      l.foldlM insertZipEntry fs = .ok t → wfFS t = true := by
  intro l
  induction l with
  | nil =>
    intro fs t hwf h
    simp only [List.foldlM_nil] at h
    cases h
    exact hwf
  | cons e l' ih =>
    intro fs t hwf h
    rw [List.foldlM_cons] at h
    cases hi : insertZipEntry fs e with
    | error msg =>
      rw [hi] at h
      exact Except.noConfusion h
    | ok fs1 =>
      rw [hi] at h
      exact ih fs1 t (wf_insertZipEntry hi hwf) h

theorem wf_extractTree {ar : Archive} {t : FS}
    (h : extractTree ar = .ok t) : wfFS t = true :=
  wf_foldl_insertZip ar [] t rfl h

/-! ## Lemmas: inversions and sequencing -/

theorem setEntryFS_cons_ok_inv {fs fs' : FS} {n m : String} {p : Path}
    {e : FSEntry} (h : setEntryFS fs (n :: m :: p) e = .ok fs') :
    ∃ cs cs', findChild fs n = some (.dir cs) ∧
      setEntryFS cs (m :: p) e = .ok cs' ∧ fs' = setChild fs n (.dir cs') := by
  cases hfc : findChild fs n with
  | none => simp [setEntryFS, hfc] at h
  | some x =>
    cases x with
    | file c => simp [setEntryFS, hfc] at h
    | dir cs =>
      cases hrec : setEntryFS cs (m :: p) e with
      | error msg => simp [setEntryFS, hfc, hrec] at h
      | ok cs' =>
        simp only [setEntryFS, hfc, hrec, Except.ok.injEq] at h
        exact ⟨cs, cs', rfl, hrec, h.symm⟩

theorem removeFS_singleton_findChild {fs fs' : FS} {n : String}
    (h : removeFS fs [n] = .ok fs') (hwf : wfFS fs = true) :
    findChild fs' n = none := by
  cases hfc : findChild fs n with
  | none => simp [removeFS, hfc] at h
  | some x =>
    simp only [removeFS, hfc, Except.ok.injEq] at h
    subst h
    exact findChild_removeChild_self hwf

theorem mkChain_lookup_self {p : Path} (hp : p ≠ []) :
    isDirO (lookupFS (mkChain p) p) = true := by
  induction p with
  | nil => exact absurd rfl hp
  | cons n p' ih =>
    cases p' with
    | nil => simp [mkChain, lookupFS_cons, findChild, lookupE, isDirO]
    | cons m p'' =>
      rw [lookupFS_cons]
      simp only [mkChain, findChild, if_pos rfl]
      exact ih (List.cons_ne_nil m p'')

theorem makedirsFS_ok_isDir {fs fs' : FS} {p : Path}
    (h : makedirsFS fs p = .ok fs') (hp : p ≠ []) :
    isDirO (lookupFS fs' p) = true := by
  induction p generalizing fs fs' with
  | nil => exact absurd rfl hp
  | cons n p' ih =>
    cases hfc : findChild fs n with
    | none =>
      simp only [makedirsFS, hfc, Except.ok.injEq] at h
      subst h
      cases p' with
      | nil => simp [lookupFS_setChild, lookupE, isDirO]
      | cons m p'' =>
        rw [lookupFS_setChild, if_pos rfl]
        exact mkChain_lookup_self (List.cons_ne_nil m p'')
    | some x =>
      cases x with
      | file c => simp [makedirsFS, hfc] at h
      | dir cs =>
        cases hrec : makedirsFS cs p' with
        | error msg => simp [makedirsFS, hfc, hrec] at h
        | ok cs' =>
          simp only [makedirsFS, hfc, hrec, Except.ok.injEq] at h
          subst h
          cases p' with
          | nil =>
            simp only [makedirsFS, Except.ok.injEq] at hrec
            subst hrec
            simp [lookupFS_setChild, lookupE, isDirO]
          | cons m p'' =>
            rw [lookupFS_setChild, if_pos rfl]
            exact ih hrec (List.cons_ne_nil m p'')

theorem liftE_eq_ok {fs : FS} {r : Except String FS} {b : FS} :
    liftE fs r = .ok b ↔ r = .ok b := by
  cases r <;> simp [liftE]

theorem seqE_eq_ok {x : SetupM} {f : FS → SetupM} {b : FS} :
    seqE x f = .ok b ↔ ∃ a, x = .ok a ∧ f a = .ok b := by
  cases x with
  | ok a => simp [seqE]
  | error e => simp [seqE]

theorem seqE_error_elim {x : SetupM} {f : FS → SetupM} {e : String × FS}
    (h : seqE x f = .error e) :
    x = .error e ∨ ∃ a, x = .ok a ∧ f a = .error e := by
  cases x with
  | ok a => exact Or.inr ⟨a, rfl, h⟩
  | error e' =>
    simp only [seqE] at h
    exact Or.inl h

theorem liftE_error_elim {fs : FS} {r : Except String FS} {e : String × FS}
    (h : liftE fs r = .error e) : e.2 = fs := by
  cases r with
  | ok a => exact Except.noConfusion h
  | error m =>
    simp only [liftE, Except.error.injEq] at h
    rw [← h]

/-! ## Lemmas: Python `str.replace` -/

theorem isPrefixOf_true_iff {l1 l2 : List Char} :
    l1.isPrefixOf l2 = true ↔ l1 <+: l2 := by
  induction l1 generalizing l2 with
  | nil => simp [List.isPrefixOf]
  | cons a as ih =>
    cases l2 with
    | nil => simp [List.isPrefixOf]
    | cons b bs => simp [List.isPrefixOf, ih, List.cons_prefix_cons]

theorem replaceFuel_nil (pat rep : List Char) (f : Nat) :
    replaceFuel pat rep f [] = [] := by
  cases f <;> rfl

theorem replaceAll_nil (pat rep : List Char) : replaceAll pat rep [] = [] :=
  replaceFuel_nil pat rep 0

theorem replaceFuel_congr (pat rep : List Char) :
    ∀ (f1 f2 : Nat) (s : List Char), s.length ≤ f1 → s.length ≤ f2 →
      replaceFuel pat rep f1 s = replaceFuel pat rep f2 s := by
  intro f1
  induction f1 with
  | zero =>
    intro f2 s h1 _
    have hs : s = [] := List.eq_nil_of_length_eq_zero (Nat.le_zero.mp h1)
    subst hs
    rw [replaceFuel_nil, replaceFuel_nil]
  | succ f1' ih =>
    intro f2 s h1 h2
    cases s with
    | nil => rw [replaceFuel_nil, replaceFuel_nil]
    | cons c cs =>
      cases f2 with
      | zero => simp at h2
      | succ f2' =>
        simp only [replaceFuel]
        have hlen : cs.length ≤ f1' ∧ cs.length ≤ f2' := by
          simp only [List.length_cons] at h1 h2
          omega
        by_cases hc : (pat.isPrefixOf (c :: cs) && !pat.isEmpty) = true
        · rw [if_pos hc, if_pos hc]
          congr 1
          apply ih
          · calc (List.drop (pat.length - 1) cs).length ≤ cs.length :=
                  by rw [List.length_drop]; omega
              _ ≤ f1' := hlen.1
          · calc (List.drop (pat.length - 1) cs).length ≤ cs.length :=
                  by rw [List.length_drop]; omega
              _ ≤ f2' := hlen.2
        · rw [if_neg hc, if_neg hc]
          congr 1
          exact ih f2' cs hlen.1 hlen.2

theorem isPrefixOf_append_self (l t : List Char) :
    l.isPrefixOf (l ++ t) = true :=
  isPrefixOf_true_iff.mpr ⟨t, rfl⟩

theorem replaceAll_prefix_pos {pat rep : List Char} (hp : pat ≠ [])
    (t : List Char) :
    replaceAll pat rep (pat ++ t) = rep ++ replaceAll pat rep t := by
  obtain ⟨p0, pr, rfl⟩ : ∃ p0 pr, pat = p0 :: pr := by
    cases pat with
    | nil => exact absurd rfl hp
    | cons p0 pr => exact ⟨p0, pr, rfl⟩
  show replaceFuel _ _ ((p0 :: pr ++ t).length) ((p0 :: pr) ++ t) = _
  have hlen : ((p0 :: pr) ++ t).length = ((pr ++ t).length) + 1 := by simp
  rw [hlen]
  have hshape : (p0 :: pr) ++ t = p0 :: (pr ++ t) := rfl
  rw [hshape]
  simp only [replaceFuel]
  have hcond : ((p0 :: pr).isPrefixOf (p0 :: (pr ++ t)) && !(p0 :: pr).isEmpty)
      = true := by
    rw [← hshape, isPrefixOf_append_self]
    simp [List.isEmpty]
  rw [if_pos hcond]
  congr 1
  have hdrop : List.drop ((p0 :: pr).length - 1) (pr ++ t) = t := by
    simp only [List.length_cons, Nat.add_sub_cancel]
    exact List.drop_left pr t
  rw [hdrop]
  exact replaceFuel_congr _ _ _ _ t (by simp) (le_refl _)

theorem replaceAll_cons_neg {pat rep : List Char} {c : Char} {cs : List Char}
    (h : ¬ pat <+: (c :: cs)) :
    replaceAll pat rep (c :: cs) = c :: replaceAll pat rep cs := by
  show replaceFuel _ _ ((c :: cs).length) (c :: cs) = _
  have hlen : (c :: cs).length = cs.length + 1 := rfl
  rw [hlen]
  simp only [replaceFuel]
  have hcond : (pat.isPrefixOf (c :: cs) && !pat.isEmpty) = false := by
    cases hpp : pat.isPrefixOf (c :: cs) with
    | true => exact absurd (isPrefixOf_true_iff.mp hpp) h
    | false => rfl
  rw [if_neg (by simp [hcond])]
  rfl

theorem replaceAll_of_not_infix {pat rep : List Char} :
    ∀ {s : List Char}, ¬ pat <:+: s → replaceAll pat rep s = s := by
  intro s
  induction s with
  | nil => intro _; exact replaceAll_nil pat rep
  | cons c cs ih =>
    intro hinf
    have hpre : ¬ pat <+: (c :: cs) := fun hp => hinf hp.isInfix
    rw [replaceAll_cons_neg hpre,
      ih fun hi => hinf (List.infix_cons hi)]

/-! ## Lemmas: line decomposition -/

/-- Prepend characters to the first line of a decomposition. -/
def consFirst (a : List Char) : List (List Char) → List (List Char)
  | [] => [a]
  | l :: ls => (a ++ l) :: ls

theorem linesOf_ne_nil (s : List Char) : linesOf s ≠ [] := by
  cases s with
  | nil => simp [linesOf]
  | cons c cs =>
    by_cases h : c = '\n'
    · simp [linesOf, h]
    · simp only [linesOf, if_neg h]
      cases linesOf cs <;> simp

theorem linesOf_cons_ne {c : Char} (h : ¬ c = '\n') (cs : List Char) :
    linesOf (c :: cs) = consFirst [c] (linesOf cs) := by
  simp only [linesOf, if_neg h]
  cases linesOf cs <;> simp [consFirst]

theorem linesOf_newline_cons (cs : List Char) :
    linesOf ('\n' :: cs) = [] :: linesOf cs := by
  simp [linesOf]

theorem consFirst_consFirst (a b : List Char) (L : List (List Char)) :
    consFirst a (consFirst b L) = consFirst (a ++ b) L := by
  cases L <;> simp [consFirst, List.append_assoc]

theorem linesOf_append {a : List Char} (ha : '\n' ∉ a) (b : List Char) :
    linesOf (a ++ b) = consFirst a (linesOf b) := by
  induction a with
  | nil =>
    cases hL : linesOf b with
    | nil => exact absurd hL (linesOf_ne_nil b)
    | cons l ls => simp [hL, consFirst]
  | cons x a' ih =>
    have hx : ¬ x = '\n' := fun hxeq => ha (hxeq ▸ List.mem_cons_self x a')
    have ha' : '\n' ∉ a' := fun hm => ha (List.mem_cons_of_mem x hm)
    rw [List.cons_append, linesOf_cons_ne hx, ih ha', consFirst_consFirst]
    rfl

theorem linesOf_head_prefix (s : List Char) : (linesOf s).headD [] <+: s := by
  induction s with
  | nil => simp [linesOf]
  | cons c cs ih =>
    by_cases h : c = '\n'
    · subst h
      simp [linesOf_newline_cons, List.nil_prefix]
    · rw [linesOf_cons_ne h]
      cases hL : linesOf cs with
      | nil => exact absurd hL (linesOf_ne_nil cs)
      | cons l ls =>
        rw [hL] at ih
        simp only [List.headD] at ih ⊢
        simp only [consFirst]
        exact List.cons_prefix_cons.mpr ⟨rfl, ih⟩

theorem linesOf_replaceAll {pat rep : List Char} (hp : pat ≠ [])
    (hnp : '\n' ∉ pat) (hnr : '\n' ∉ rep) (s : List Char) :
    linesOf (replaceAll pat rep s) = (linesOf s).map (replaceAll pat rep) := by
  have H : ∀ (n : Nat) (s : List Char), s.length ≤ n →
      linesOf (replaceAll pat rep s)
        = (linesOf s).map (replaceAll pat rep) := by
    intro n
    induction n with
    | zero =>
      intro s hs
      have : s = [] := List.eq_nil_of_length_eq_zero (Nat.le_zero.mp hs)
      subst this
      simp [replaceAll_nil, linesOf]
    | succ n' ih =>
      intro s hs
      cases s with
      | nil => simp [replaceAll_nil, linesOf]
      | cons c cs =>
        have hcs : cs.length ≤ n' := by
          simp only [List.length_cons] at hs; omega
        by_cases hpre : pat <+: (c :: cs)
        · obtain ⟨t, ht⟩ := hpre
          have htlen : t.length ≤ n' := by
            have := congrArg List.length ht
            simp only [List.length_append, List.length_cons] at this
            have hplen : 0 < pat.length := List.length_pos.mpr hp
            omega
          rw [← ht, replaceAll_prefix_pos hp, linesOf_append hnr,
            ih t htlen, linesOf_append hnp]
          cases hL : linesOf t with
          | nil => exact absurd hL (linesOf_ne_nil t)
          | cons l ls =>
            simp only [consFirst, List.map_cons]
            rw [replaceAll_prefix_pos hp]
        · by_cases hc : c = '\n'
          · subst hc
            rw [replaceAll_cons_neg hpre, linesOf_newline_cons,
              linesOf_newline_cons, List.map_cons, replaceAll_nil,
              ih cs hcs]
          · rw [replaceAll_cons_neg hpre, linesOf_cons_ne hc,
              linesOf_cons_ne hc, ih cs hcs]
            cases hL : linesOf cs with
            | nil => exact absurd hL (linesOf_ne_nil cs)
            | cons l ls =>
              simp only [consFirst, List.map_cons]
              have hlcs : l <+: cs := by
                have := linesOf_head_prefix cs
                rw [hL] at this
                simpa using this
              have hfl : replaceAll pat rep (c :: l) = c :: replaceAll pat rep l := by
                apply replaceAll_cons_neg
                intro hpp
                exact hpre (hpp.trans (List.cons_prefix_cons.mpr ⟨rfl, hlcs⟩))
              simp only [List.cons_append, List.nil_append] at hfl ⊢
              rw [hfl]
  exact H s.length s (le_refl _)

/-- The effect of setup step 6 on a single line of the metadata file. -/
def patchLine (l : List Char) : List Char :=
  replaceAll versionOrig versionRepl (replaceAll nameOrig nameRepl l)

theorem linesOf_patchContent (content : List Char) :
    linesOf (patchContent content) = (linesOf content).map patchLine := by
  unfold patchContent
  rw [linesOf_replaceAll (by decide) (by decide) (by decide),
    linesOf_replaceAll (by decide) (by decide) (by decide), List.map_map]
  rfl

/-! ## The claims -/

/-- C4: for a metadata text containing the original name line
`name=ESP32 Arduino` and the original version line `version=2.0.17`, the
patched text contains the replacement line
`name=bpad proto1 (ESP32 v2.0.17)` and the override line `version=0.1.0`,
and every line that contains neither of the two replaced literals is
unaltered, at its original position. -/
theorem claim_C4 (content : List Char)
    (hname : nameOrig ∈ linesOf content)
    (hver : versionOrig ∈ linesOf content) :
    nameRepl ∈ linesOf (patchContent content) ∧
    versionRepl ∈ linesOf (patchContent content) ∧
    ∀ i l, (linesOf content).get? i = some l →
      ¬ nameOrig <:+: l → ¬ versionOrig <:+: l →
      (linesOf (patchContent content)).get? i = some l := by
  have hmap := linesOf_patchContent content
  refine ⟨?_, ?_, ?_⟩
  · rw [hmap]
    have hval : patchLine nameOrig = nameRepl := by decide
    exact hval ▸ List.mem_map_of_mem patchLine hname
  · rw [hmap]
    have hval : patchLine versionOrig = versionRepl := by decide
    exact hval ▸ List.mem_map_of_mem patchLine hver
  · intro i l hget hn hv
    rw [hmap, List.get?_eq_getElem?, List.getElem?_map,
      ← List.get?_eq_getElem?, hget]
    simp only [Option.map_some']
    rw [patchLine, replaceAll_of_not_infix hn, replaceAll_of_not_infix hv]

/-- A concrete metadata text for the C4 witness. -/
def c4Content : List Char :=
  "# Arduino core\nname=ESP32 Arduino\nversion=2.0.17\ntools.esptool=y".toList

/-- Witness for C4 at a concrete metadata text. -/
theorem claim_C4_witness :
    (nameOrig ∈ linesOf c4Content ∧ versionOrig ∈ linesOf c4Content) ∧
    (nameRepl ∈ linesOf (patchContent c4Content) ∧
     versionRepl ∈ linesOf (patchContent c4Content) ∧
     ∀ i l, (linesOf c4Content).get? i = some l →
       ¬ nameOrig <:+: l → ¬ versionOrig <:+: l →
       (linesOf (patchContent c4Content)).get? i = some l) :=
  ⟨⟨by decide, by decide⟩, claim_C4 c4Content (by decide) (by decide)⟩

/-- On the subprocess outcomes that `get_git_short_sha` survives, the
full-outcome build run coincides with `buildRun`: a successful lookup maps
to `.ok stdout` and a caught exception to `.error e`, so the runs stated
over `Except GitErr String` are exactly the non-propagating runs of the
full model. -/
theorem buildRunFull_restrict (fs : FS) (v : String) :
    (∀ out, buildRunFull fs v (.success out) = buildRun fs v (.ok out)) ∧
    (∀ e : GitErr, buildRunFull fs v (.caught e) = buildRun fs v (.error e)) :=
  ⟨fun _ => rfl, fun _ => rfl⟩

/-- C6: the setup run performs the network fetch exactly when the cached
vendor archive is absent from its expected local path; with the cached file
present no download happens. -/
theorem claim_C6 (fs : FS) (ar : Archive) :
    (setupRun fs ar).fetched = !(pathExists fs [ESP32_ZIP_FILE]) := by
  unfold setupRun
  split <;> rfl

/-- C5: when the vendor tree is absent, or the metadata file inside it is
absent, or the operator's version input strips to the empty string, the
build exits fatally with the state unchanged: no archive data is produced
and no archive name is even composed. -/
theorem claim_C5 (fs : FS) (v : String) (g : Except GitErr String)
    (h : lookupFS fs ["esp32"] = none ∨
      lookupFS fs ["esp32", "platform.txt"] = none ∨ pyStrip v = "") :
    ∃ m, (buildRun fs v g).status = .fatal m ∧
      (buildRun fs v g).fs = fs ∧ (buildRun fs v g).zipData = none ∧
      (buildRun fs v g).archiveName = none := by
  cases hv : pathExists fs ["esp32"] with
  | false =>
    exact ⟨"ERROR: esp32/ directory not found!", by simp [buildRun, hv],
      by simp [buildRun, hv], by simp [buildRun, hv], by simp [buildRun, hv]⟩
  | true =>
    cases hp : pathExists fs ["esp32", "platform.txt"] with
    | false =>
      exact ⟨"ERROR: esp32/platform.txt not found!", by simp [buildRun, hv, hp],
        by simp [buildRun, hv, hp], by simp [buildRun, hv, hp],
        by simp [buildRun, hv, hp]⟩
    | true =>
      have hemp : pyStrip v = "" := by
        rcases h with h | h | h
        · rw [pathExists, h] at hv; exact Bool.noConfusion hv
        · rw [pathExists, h] at hp; exact Bool.noConfusion hp
        · exact h
      exact ⟨"ERROR: Version cannot be empty!", by simp [buildRun, hv, hp, hemp],
        by simp [buildRun, hv, hp, hemp], by simp [buildRun, hv, hp, hemp],
        by simp [buildRun, hv, hp, hemp]⟩

/-- Witness for C5: a state without a vendor tree. -/
theorem claim_C5_witness :
    (lookupFS [] ["esp32"] = none ∨
      lookupFS [] ["esp32", "platform.txt"] = none ∨ pyStrip "1.0" = "") ∧
    ∃ m, (buildRun [] "1.0" (.ok "abc")).status = .fatal m ∧
      (buildRun [] "1.0" (.ok "abc")).fs = [] ∧
      (buildRun [] "1.0" (.ok "abc")).zipData = none ∧
      (buildRun [] "1.0" (.ok "abc")).archiveName = none :=
  ⟨Or.inl rfl, claim_C5 [] "1.0" (.ok "abc") (Or.inl rfl)⟩

/-- C9: the build first strips the operator's version input; an input that
strips to the empty string (for example only spaces and tabs) is fatal with
no state change, and otherwise the version tag and the archive filename are
composed from the stripped string as `bpad_proto1-v<version>-<sha>.zip`. -/
theorem claim_C9 (fs : FS) (v : String) (g : Except GitErr String)
    (hv : pathExists fs ["esp32"] = true)
    (hp : pathExists fs ["esp32", "platform.txt"] = true) :
    (pyStrip v = "" →
      (buildRun fs v g).status = .fatal "ERROR: Version cannot be empty!" ∧
      (buildRun fs v g).fs = fs ∧ (buildRun fs v g).zipData = none) ∧
    (pyStrip v ≠ "" →
      (buildRun fs v g).archiveName =
        some (buildZipName (pyStrip v) (get_git_short_sha g))) := by
  constructor
  · intro hemp
    refine ⟨?_, ?_, ?_⟩ <;> simp [buildRun, hv, hp, hemp]
  · intro hne
    simp only [buildRun, hv, hp, Bool.not_true, Bool.false_eq_true,
      if_false, if_neg hne]
    split <;> first | rfl | (split <;> first | rfl | (split <;> rfl))

/-- A vendor tree satisfying the build preconditions, for witnesses. -/
def buildFS : FS :=
  [("esp32", .dir [("platform.txt", .file "name=bpad proto1 (ESP32 v2.0.17)"),
    ("cores", .dir [("esp32", .dir [("main.cpp", .file "int app_main;")])])])]

/-- Witness for C9 at a concrete state and inputs. -/
theorem claim_C9_witness :
    (pathExists buildFS ["esp32"] = true ∧
     pathExists buildFS ["esp32", "platform.txt"] = true) ∧
    ((pyStrip " 1.2.3 " = "" →
      (buildRun buildFS " 1.2.3 " (.ok "ab12cd\n")).status =
        .fatal "ERROR: Version cannot be empty!" ∧
      (buildRun buildFS " 1.2.3 " (.ok "ab12cd\n")).fs = buildFS ∧
      (buildRun buildFS " 1.2.3 " (.ok "ab12cd\n")).zipData = none) ∧
    (pyStrip " 1.2.3 " ≠ "" →
      (buildRun buildFS " 1.2.3 " (.ok "ab12cd\n")).archiveName =
        some (buildZipName (pyStrip " 1.2.3 ")
          (get_git_short_sha (.ok "ab12cd\n"))))) :=
  ⟨⟨by decide, by decide⟩,
    claim_C9 buildFS " 1.2.3 " (.ok "ab12cd\n") (by decide) (by decide)⟩

/-! ## C7: failures of the revision lookup -/

/-- Counterexample to C7 as stated: a failure of the lookup outside the two
caught exception classes — here a `PermissionError` raised by
`subprocess.run` — is not turned into the placeholder.  It propagates out
of `get_git_short_sha`, and a build run meeting every precondition is
terminated fatally by it. -/
theorem claim_C7_counterexample :
    gitShortShaFull (.uncaught "PermissionError: git is not executable")
      ≠ .ok "unknown" ∧
    (buildRunFull buildFS "0.1.0"
        (.uncaught "PermissionError: git is not executable")).status
      = .fatal "PermissionError: git is not executable" :=
  ⟨fun h => Except.noConfusion h, rfl⟩

/-- C7 (amended): the source-revision lookup is non-fatal exactly for the
two exception classes the script catches.  For a `CalledProcessError`
(e.g. not a repository) or a `FileNotFoundError` (tool unavailable) the
build-identifier function returns the fixed placeholder "unknown" and the
whole run proceeds exactly as with a successful lookup that returned the
placeholder; a successful lookup returns the whitespace-stripped short
revision identifier.  Any other failure of the lookup is not caught: it
propagates, and the run terminates fatally with the state unchanged and no
archive written. -/
theorem claim_C7_amended :
    (∀ e : GitErr, gitShortShaFull (.caught e) = .ok "unknown") ∧
    (∀ out : String, gitShortShaFull (.success out) = .ok (pyStrip out)) ∧
    (∀ (fs : FS) (v : String) (e : GitErr),
      buildRunFull fs v (.caught e) = buildRunFull fs v (.success "unknown")) ∧
    (∀ (fs : FS) (v : String) (exc : String), ∃ m,
      (buildRunFull fs v (.uncaught exc)).status = .fatal m ∧
      (buildRunFull fs v (.uncaught exc)).fs = fs ∧
      (buildRunFull fs v (.uncaught exc)).zipData = none) := by
  refine ⟨fun e => rfl, fun out => rfl, fun fs v e => rfl, fun fs v exc => ?_⟩
  unfold buildRunFull
  dsimp only
  split
  · exact ⟨_, rfl, rfl, rfl⟩
  · split
    · exact ⟨_, rfl, rfl, rfl⟩
    · split
      · exact ⟨_, rfl, rfl, rfl⟩
      · exact ⟨exc, rfl, rfl, rfl⟩

/-! ## C2: reproducible packaging -/

theorem pathDisj_of_head_ne {a b : String} {p q : Path} (h : a ≠ b) :
    pathDisj (a :: p) (b :: q) :=
  ⟨fun hp => h (List.cons_prefix_cons.mp hp).1,
   fun hp => h ((List.cons_prefix_cons.mp hp).1).symm⟩

theorem buildRun_ok_inv {fs : FS} {v : String} {g : Except GitErr String}
    (h : (buildRun fs v g).status = .ok) :
    pathExists fs ["esp32"] = true ∧
    pathExists fs ["esp32", "platform.txt"] = true ∧
    pyStrip v ≠ "" ∧
    ∃ fs1 vendor fs2,
      makedirsFS fs ["release"] = .ok fs1 ∧
      lookupFS fs1 ["esp32"] = some vendor ∧
      writeFileFS fs1 ["release", buildZipName (pyStrip v) (get_git_short_sha g)]
        (encodeZipData (create_zip_entries vendor)) = .ok fs2 ∧
      buildRun fs v g =
        ⟨fs2, .ok, some (buildZipName (pyStrip v) (get_git_short_sha g)),
          some (create_zip_entries vendor)⟩ := by
  cases hv : pathExists fs ["esp32"] with
  | false => simp [buildRun, hv] at h
  | true =>
    cases hp : pathExists fs ["esp32", "platform.txt"] with
    | false => simp [buildRun, hv, hp] at h
    | true =>
      by_cases hne : pyStrip v = ""
      · simp [buildRun, hv, hp, hne] at h
      · refine ⟨rfl, rfl, hne, ?_⟩
        cases hmk : makedirsFS fs ["release"] with
        | error m => simp [buildRun, hv, hp, hne, hmk] at h
        | ok fs1 =>
          cases hlk : lookupFS fs1 ["esp32"] with
          | none => simp [buildRun, hv, hp, hne, hmk, hlk] at h
          | some vendor =>
            cases hw : writeFileFS fs1
                ["release", buildZipName (pyStrip v) (get_git_short_sha g)]
                (encodeZipData (create_zip_entries vendor)) with
            | error m => simp [buildRun, hv, hp, hne, hmk, hlk, hw] at h
            | ok fs2 =>
              exact ⟨fs1, vendor, fs2, rfl, hlk, hw,
                by simp [buildRun, hv, hp, hne, hmk, hlk, hw]⟩

/-- C2: running Package-and-Checksum a second time over the state left by a
successful run — the vendor tree unchanged, the same version input and the
same build identifier — succeeds and produces an archive with exactly the
same entries, hence the same bytes and the same checksum under any hash
function of the archive data. -/
theorem claim_C2 (fs : FS) (v : String) (g : Except GitErr String)
    (h1 : (buildRun fs v g).status = .ok) :
    (buildRun (buildRun fs v g).fs v g).status = .ok ∧
    (buildRun (buildRun fs v g).fs v g).zipData = (buildRun fs v g).zipData ∧
    ((buildRun fs v g).zipData).isSome = true ∧
    ∀ hash : Option (List (Path × String)) → String,
      hash ((buildRun (buildRun fs v g).fs v g).zipData) =
        hash ((buildRun fs v g).zipData) := by
  obtain ⟨hv, hp, hne, fs1, vendor, fs2, hmk, hlk, hw, heq⟩ := buildRun_ok_inv h1
  obtain ⟨cs, cs', hfc1, hset, hfs2⟩ :=
    setEntryFS_cons_ok_inv (writeFileFS_ok_setEntry hw)
  have hfc2 : findChild fs2 "release" = some (.dir cs') := by
    rw [hfs2, findChild_setChild, if_pos rfl]
  have hlk2 : lookupFS fs2 ["esp32"] = some vendor := by
    rw [writeFileFS_ok_lookup_disj hw (pathDisj_of_head_ne (by decide))]
    exact hlk
  have hv2 : pathExists fs2 ["esp32"] = true := by
    rw [pathExists, hlk2]; rfl
  have hp2 : pathExists fs2 ["esp32", "platform.txt"] = true := by
    rw [pathExists, writeFileFS_ok_lookup_disj hw (pathDisj_of_head_ne (by decide)),
      makedirsFS_ok_lookup_disj hmk (pathDisj_of_head_ne (by decide))]
    exact hp
  have hmk2 : makedirsFS fs2 ["release"] = .ok fs2 := by
    simp only [makedirsFS, hfc2]
    rw [setChild_self hfc2]
  have hl2 : lookupFS fs2 ["release", buildZipName (pyStrip v) (get_git_short_sha g)]
      = some (.file (encodeZipData (create_zip_entries vendor))) :=
    writeFileFS_ok_lookup_same hw
  have hw2 : writeFileFS fs2
      ["release", buildZipName (pyStrip v) (get_git_short_sha g)]
      (encodeZipData (create_zip_entries vendor)) =
      .ok (setChild fs2 "release" (.dir (setChild cs'
        (buildZipName (pyStrip v) (get_git_short_sha g))
        (.file (encodeZipData (create_zip_entries vendor)))))) := by
    rw [writeFileFS, hl2]
    simp only [setEntryFS, hfc2]
  have h2 : buildRun fs2 v g =
      ⟨setChild fs2 "release" (.dir (setChild cs'
        (buildZipName (pyStrip v) (get_git_short_sha g))
        (.file (encodeZipData (create_zip_entries vendor))))), .ok,
        some (buildZipName (pyStrip v) (get_git_short_sha g)),
        some (create_zip_entries vendor)⟩ := by
    simp [buildRun, hv2, hp2, hne, hmk2, hlk2, hw2]
  rw [heq]
  dsimp only
  rw [h2]
  exact ⟨rfl, rfl, rfl, fun hash => rfl⟩

/-- Witness for C2 at a concrete state and inputs. -/
theorem claim_C2_witness :
    (buildRun buildFS "1.0" (.ok "abc")).status = .ok ∧
    ((buildRun (buildRun buildFS "1.0" (.ok "abc")).fs "1.0" (.ok "abc")).status = .ok ∧
     (buildRun (buildRun buildFS "1.0" (.ok "abc")).fs "1.0" (.ok "abc")).zipData =
       (buildRun buildFS "1.0" (.ok "abc")).zipData ∧
     ((buildRun buildFS "1.0" (.ok "abc")).zipData).isSome = true ∧
     ∀ hash : Option (List (Path × String)) → String,
       hash ((buildRun (buildRun buildFS "1.0" (.ok "abc")).fs "1.0" (.ok "abc")).zipData) =
         hash ((buildRun buildFS "1.0" (.ok "abc")).zipData)) :=
  ⟨rfl, claim_C2 buildFS "1.0" (.ok "abc") rfl⟩

/-! ## C10: the archive's entries are exactly the tree's regular files -/

theorem hasName_of_mem {cs : FS} {n : String} {e : FSEntry}
    (h : (n, e) ∈ cs) : hasName cs n = true := by
  induction cs with
  | nil => simp at h
  | cons hd r ih =>
    obtain ⟨a, x⟩ := hd
    rcases List.mem_cons.mp h with heq | hm
    · obtain ⟨h1, h2⟩ := Prod.mk.injEq .. ▸ heq
      simp [hasName, h1]
    · by_cases han : a = n
      · simp [hasName, han]
      · simp [hasName, han, ih hm]

theorem findChild_mem {cs : FS} {n : String} {e : FSEntry}
    (h : findChild cs n = some e) : (n, e) ∈ cs := by
  induction cs with
  | nil => simp [findChild] at h
  | cons hd r ih =>
    obtain ⟨a, x⟩ := hd
    by_cases han : a = n
    · subst han
      simp [findChild] at h
      simp [h]
    · simp only [findChild, if_neg han] at h
      exact List.mem_cons_of_mem _ (ih h)

theorem wf_mem_findChild {cs : FS} {n : String} {e : FSEntry}
    (hwf : wfFS cs = true) (h : (n, e) ∈ cs) : findChild cs n = some e := by
  induction cs with
  | nil => simp at h
  | cons hd r ih =>
    obtain ⟨a, x⟩ := hd
    obtain ⟨_, h2, h3⟩ := wfFS_cons.mp hwf
    rcases List.mem_cons.mp h with heq | hm
    · obtain ⟨h4, h5⟩ := Prod.mk.injEq .. ▸ heq
      simp [findChild, h4, h5]
    · have han : a ≠ n := by
        intro han
        rw [han, hasName_of_mem hm] at h2
        exact Bool.noConfusion h2
      simp only [findChild, if_neg han]
      exact ih h3 hm

theorem sizeOf_dirChild_lt {cs : FS} {n : String} {cs' : FS}
    (hm : (n, FSEntry.dir cs') ∈ cs) : sizeOf cs' < sizeOf cs := by
  have h1 := List.sizeOf_lt_of_mem hm
  simp only [Prod.mk.sizeOf_spec, FSEntry.dir.sizeOf_spec] at h1
  omega

theorem filesOf_mem {pre p : Path} {c : String} {cs : FS} :
    (p, c) ∈ filesOf pre cs ↔
      ∃ n, (n, FSEntry.file c) ∈ cs ∧ p = pre ++ [n] := by
  unfold filesOf
  rw [List.mem_filterMap]
  constructor
  · rintro ⟨⟨n, e⟩, hm, hf⟩
    cases e with
    | file c0 =>
      simp only [Option.some.injEq, Prod.mk.injEq] at hf
      obtain ⟨hp, hc⟩ := hf
      exact ⟨n, hc ▸ hm, hp.symm⟩
    | dir cs' => simp at hf
  · rintro ⟨n, hm, hp⟩
    exact ⟨(n, .file c), hm, by simp [hp]⟩

theorem walkSub_mem {pre p : Path} {c : String} {cs : FS} :
    (p, c) ∈ walkSub pre cs ↔
      ∃ n e, (n, e) ∈ cs ∧ (p, c) ∈ walkE (pre ++ [n]) e := by
  induction cs with
  | nil => simp [walkSub]
  | cons hd r ih =>
    obtain ⟨n0, e0⟩ := hd
    rw [show walkSub pre ((n0, e0) :: r)
        = walkE (pre ++ [n0]) e0 ++ walkSub pre r from rfl,
      List.mem_append, ih]
    constructor
    · rintro (h | ⟨n, e, hm, hin⟩)
      · exact ⟨n0, e0, List.mem_cons_self _ _, h⟩
      · exact ⟨n, e, List.mem_cons_of_mem _ hm, hin⟩
    · rintro ⟨n, e, hm, hin⟩
      rcases List.mem_cons.mp hm with heq | hm'
      · obtain ⟨h1, h2⟩ := Prod.mk.injEq .. ▸ heq
        subst h1; subst h2
        exact Or.inl hin
      · exact Or.inr ⟨n, e, hm', hin⟩

theorem walk_mem_aux :
    ∀ (k : Nat) (cs : FS), sizeOf cs ≤ k → wfFS cs = true →
      ∀ (pre p : Path) (c : String),
        ((p, c) ∈ walkE pre (.dir cs) ↔
          ∃ rel, p = pre ++ rel ∧ lookupE (.dir cs) rel = some (.file c)) := by
  intro k
  induction k with
  | zero =>
    intro cs hcs
    exact absurd hcs (by cases cs <;> simp)
  | succ k' ih =>
    intro cs hcs hwf pre p c
    rw [show walkE pre (.dir cs) = filesOf pre cs ++ walkSub pre cs from rfl,
      List.mem_append]
    constructor
    · rintro (hf | hs)
      · obtain ⟨n, hmem, hp⟩ := filesOf_mem.mp hf
        refine ⟨[n], hp, ?_⟩
        have hfc := wf_mem_findChild hwf hmem
        simp [lookupE, hfc]
      · obtain ⟨n, e, hmem, hin⟩ := walkSub_mem.mp hs
        cases e with
        | file c0 => simp [walkE] at hin
        | dir cs' =>
          have hsz : sizeOf cs' ≤ k' := by
            have := sizeOf_dirChild_lt hmem
            omega
          have hwf' : wfFS cs' = true := by
            rw [← wfE_dir]
            exact wf_findChild (wf_mem_findChild hwf hmem) hwf
          obtain ⟨rel, hprel, hlook⟩ := (ih cs' hsz hwf' (pre ++ [n]) p c).mp hin
          refine ⟨n :: rel, by rw [hprel]; simp, ?_⟩
          have hfc := wf_mem_findChild hwf hmem
          simp [lookupE, hfc, hlook]
    · rintro ⟨rel, hprel, hlook⟩
      cases rel with
      | nil => simp [lookupE] at hlook
      | cons n rel' =>
        rw [lookupE] at hlook
        cases hfc : findChild cs n with
        | none => rw [hfc] at hlook; exact Option.noConfusion hlook
        | some e =>
          rw [hfc] at hlook
          cases e with
          | file c0 =>
            cases rel' with
            | nil =>
              simp only [lookupE, Option.some.injEq, FSEntry.file.injEq] at hlook
              subst hlook
              exact Or.inl (filesOf_mem.mpr ⟨n, findChild_mem hfc, hprel⟩)
            | cons m rel'' => simp [lookupE] at hlook
          | dir cs' =>
            cases rel' with
            | nil => simp [lookupE] at hlook
            | cons m rel'' =>
              have hsz : sizeOf cs' ≤ k' := by
                have := sizeOf_dirChild_lt (findChild_mem hfc)
                omega
              have hwf' : wfFS cs' = true := by
                rw [← wfE_dir]
                exact wf_findChild hfc hwf
              refine Or.inr (walkSub_mem.mpr ⟨n, .dir cs', findChild_mem hfc, ?_⟩)
              exact (ih cs' hsz hwf' (pre ++ [n]) p c).mpr
                ⟨m :: rel'', by simp [hprel], hlook⟩

/-- C10: for a well-formed vendor tree, the archive that `create_zip`
produces has exactly one entry per regular file under the tree, its name
anchored one level above the vendor-tree root — every entry path starts
with the component `esp32` — and no entries for directories, so an empty
subdirectory leaves no trace in the archive. -/
theorem claim_C10 (cs : FS) (hwf : wfFS cs = true) (p : Path) (c : String) :
    (p, c) ∈ create_zip_entries (.dir cs) ↔
      ∃ rel, p = "esp32" :: rel ∧ lookupE (.dir cs) rel = some (.file c) :=
  walk_mem_aux (sizeOf cs) cs (le_refl _) hwf ["esp32"] p c

/-- A concrete vendor tree with a nested file and an empty directory, for
the C10 witness. -/
def c10FS : FS :=
  [("a.txt", .file "1"),
   ("sub", .dir [("b.txt", .file "2"), ("empty", .dir [])])]

/-- Witness for C10 at a concrete tree, path and content. -/
theorem claim_C10_witness :
    wfFS c10FS = true ∧
    ((["esp32", "sub", "b.txt"], "2") ∈ create_zip_entries (.dir c10FS) ↔
      ∃ rel, ["esp32", "sub", "b.txt"] = "esp32" :: rel ∧
        lookupE (.dir c10FS) rel = some (.file "2")) :=
  ⟨by decide, claim_C10 c10FS (by decide) ["esp32", "sub", "b.txt"] "2"⟩

/-! ## C8: locating the top-level directory -/

/-- Whether a zip entry forces extraction to materialise a directory at its
top-level segment: an explicit directory entry, or a file entry nested at
least one level deep. -/
def dirInducing (e : ZipEntry) : Bool :=
  e.content.isNone || decide (2 ≤ e.path.length)

/-- The top-level segments of the archive under which extraction creates
directories. -/
def dirSegments (ar : Archive) : List String :=
  ((ar.filter dirInducing).map fun e => e.path.headD "").dedup

theorem isDirO_some (e : FSEntry) : isDirO (some e) = isDirB e := by
  cases e <;> rfl

theorem firstDir_isDir {fs : FS} {d : String} {e : FSEntry}
    (h : firstDir fs = some (d, e)) : isDirB e = true := by
  induction fs with
  | nil => simp [firstDir] at h
  | cons hd r ih =>
    obtain ⟨a, x⟩ := hd
    by_cases hx : isDirB x = true
    · simp [firstDir, hx] at h
      rw [← h.2]; exact hx
    · simp only [firstDir, if_neg hx] at h
      exact ih h

theorem setEntryFS_file_top {fs fs' : FS} {p : Path} {c : String}
    (h : setEntryFS fs p (.file c) = .ok fs') (n : String)
    (hd : isDirO (findChild fs' n) = true) : isDirO (findChild fs n) = true := by
  cases p with
  | nil => simp [setEntryFS] at h
  | cons n0 p' =>
    cases p' with
    | nil =>
      simp only [setEntryFS, Except.ok.injEq] at h
      subst h
      rw [findChild_setChild] at hd
      by_cases hn : n = n0
      · rw [if_pos hn] at hd
        exact Bool.noConfusion hd
      · rwa [if_neg hn] at hd
    | cons m p'' =>
      obtain ⟨cs, cs', hfc, _, hfs'⟩ := setEntryFS_cons_ok_inv h
      subst hfs'
      rw [findChild_setChild] at hd
      by_cases hn : n = n0
      · rw [hn, hfc]; rfl
      · rwa [if_neg hn] at hd

theorem makedirsFS_top {fs fs' : FS} {p : Path}
    (h : makedirsFS fs p = .ok fs') (n : String)
    (hd : isDirO (findChild fs' n) = true) :
    isDirO (findChild fs n) = true ∨ (p.headD "" = n ∧ p ≠ []) := by
  cases p with
  | nil =>
    simp only [makedirsFS, Except.ok.injEq] at h
    subst h
    exact Or.inl hd
  | cons n0 p' =>
    by_cases hn : n = n0
    · exact Or.inr ⟨hn.symm, List.cons_ne_nil n0 p'⟩
    · left
      cases hfc : findChild fs n0 with
      | none =>
        simp only [makedirsFS, hfc, Except.ok.injEq] at h
        subst h
        rwa [findChild_setChild, if_neg hn] at hd
      | some x =>
        cases x with
        | file c => simp [makedirsFS, hfc] at h
        | dir cs =>
          cases hrec : makedirsFS cs p' with
          | error msg => simp [makedirsFS, hfc, hrec] at h
          | ok cs' =>
            simp only [makedirsFS, hfc, hrec, Except.ok.injEq] at h
            subst h
            rwa [findChild_setChild, if_neg hn] at hd

theorem dropLast_headD {l : List String} (h : l.dropLast ≠ []) :
    l.dropLast.headD "" = l.headD "" ∧ 2 ≤ l.length := by
  cases l with
  | nil => simp at h
  | cons a l' =>
    cases l' with
    | nil => simp [List.dropLast] at h
    | cons b l'' => simp [List.dropLast]

theorem insertZipEntry_top {fs fs' : FS} {e : ZipEntry}
    (h : insertZipEntry fs e = .ok fs') (n : String)
    (hd : isDirO (findChild fs' n) = true) :
    isDirO (findChild fs n) = true ∨
      (dirInducing e = true ∧ e.path.headD "" = n) := by
  unfold insertZipEntry at h
  cases hc : e.content with
  | none =>
    rw [hc] at h
    rcases makedirsFS_top h n hd with h1 | ⟨h1, _⟩
    · exact Or.inl h1
    · exact Or.inr ⟨by simp [dirInducing, hc], h1⟩
  | some c =>
    rw [hc] at h
    cases hmk : makedirsFS fs e.path.dropLast with
    | error msg => rw [hmk] at h; exact Except.noConfusion h
    | ok fs1 =>
      rw [hmk] at h
      have h2 := setEntryFS_file_top (writeFileFS_ok_setEntry h) n hd
      rcases makedirsFS_top hmk n h2 with h1 | ⟨h1, hne⟩
      · exact Or.inl h1
      · obtain ⟨hhead, hlen⟩ := dropLast_headD hne
        exact Or.inr ⟨by simp [dirInducing, hlen], by rw [← hhead]; exact h1⟩

theorem extractTree_dirSegments {ar : Archive} {t : FS}
    (h : extractTree ar = .ok t) {n : String}
    (hd : isDirO (findChild t n) = true) : n ∈ dirSegments ar := by
  suffices H : ∀ (l : List ZipEntry) (fs t : FS),
      (∀ m, isDirO (findChild fs m) = true → m ∈ dirSegments ar) →
      (∀ e ∈ l, e ∈ ar) →
      l.foldlM insertZipEntry fs = .ok t →
      ∀ m, isDirO (findChild t m) = true → m ∈ dirSegments ar by
    exact H ar [] t (fun m hm => by simp [findChild, isDirO] at hm)
      (fun e he => he) h n hd
  intro l
  induction l with
  | nil =>
    intro fs t hfs _ hfold m hm
    simp only [List.foldlM_nil] at hfold
    cases hfold
    exact hfs m hm
  | cons e l' ih =>
    intro fs t hfs hsub hfold m hm
    rw [List.foldlM_cons] at hfold
    cases hi : insertZipEntry fs e with
    | error msg => rw [hi] at hfold; exact Except.noConfusion hfold
    | ok fs1 =>
      rw [hi] at hfold
      refine ih fs1 t ?_ (fun e' he' => hsub e' (List.mem_cons_of_mem _ he'))
        hfold m hm
      intro m' hm'
      rcases insertZipEntry_top hi m' hm' with h1 | ⟨h1, h2⟩
      · exact hfs m' h1
      · rw [← h2]
        simp only [dirSegments, List.mem_dedup, List.mem_map, List.mem_filter]
        exact ⟨e, ⟨hsub e (List.mem_cons_self _ _), h1⟩, rfl⟩

theorem dirSegments_sub_scan {ar : Archive} {n : String}
    (h : n ∈ dirSegments ar) : n ∈ scanTopSegments ar := by
  simp only [dirSegments, List.mem_dedup, List.mem_map, List.mem_filter] at h
  obtain ⟨e, ⟨he, _⟩, heq⟩ := h
  simp only [scanTopSegments, List.mem_dedup, List.mem_map]
  exact ⟨e, he, heq⟩

/-- C8: when the archive's entry names determine exactly one top-level
directory segment `d`, that segment appears in the `top_dirs` scan of setup
step 3, and the directory that step 4 selects — and then moves into place
as the vendor tree — is exactly `d`. -/
theorem claim_C8 (ar : Archive) (d : String) (hscan : dirSegments ar = [d])
    (t : FS) (ht : extractTree ar = .ok t)
    (d' : String) (sub : FSEntry) (hsel : firstDir t = some (d', sub)) :
    d' = d ∧ d ∈ scanTopSegments ar := by
  have hwt := wf_extractTree ht
  have hfc := wf_firstDir_findChild hwt hsel
  have hdir : isDirO (findChild t d') = true := by
    rw [hfc, isDirO_some]
    exact firstDir_isDir hsel
  have hd' := extractTree_dirSegments ht hdir
  rw [hscan] at hd'
  have hdd : d' = d := by simpa using hd'
  refine ⟨hdd, dirSegments_sub_scan ?_⟩
  rw [hscan]
  exact List.mem_singleton_self d

/-- A concrete archive with one top-level directory and a stray top-level
file, for the C8 witness. -/
def c8Ar : Archive :=
  [⟨["esp32-2.0.17"], none⟩, ⟨["readme.txt"], some "hi"⟩,
   ⟨["esp32-2.0.17", "platform.txt"], some "x"⟩]

/-- The extraction of `c8Ar`. -/
def c8T : FS :=
  [("esp32-2.0.17", .dir [("platform.txt", .file "x")]),
   ("readme.txt", .file "hi")]

/-- Witness for C8 at a concrete archive. -/
theorem claim_C8_witness :
    (dirSegments c8Ar = ["esp32-2.0.17"] ∧ extractTree c8Ar = .ok c8T ∧
      firstDir c8T = some ("esp32-2.0.17", .dir [("platform.txt", .file "x")])) ∧
    ("esp32-2.0.17" = "esp32-2.0.17" ∧
      "esp32-2.0.17" ∈ scanTopSegments c8Ar) :=
  ⟨⟨by decide, rfl, rfl⟩,
    claim_C8 c8Ar "esp32-2.0.17" (by decide) c8T rfl "esp32-2.0.17"
      (.dir [("platform.txt", .file "x")]) rfl⟩

/-! ## Setup phases: which region of the tree each phase can touch -/

theorem cons_dropLast_shape (d0 : String) (l : Path) :
    (d0 :: l).dropLast = [] ∨ ∃ l', (d0 :: l).dropLast = d0 :: l' := by
  cases l with
  | nil => exact Or.inl rfl
  | cons x xs => exact Or.inr ⟨(x :: xs).dropLast, rfl⟩

theorem copy2FS_ok_head {fs fs' : FS} {src : Path} {d0 : String} {drest : Path}
    (h : copy2FS fs src (d0 :: drest) = .ok fs') {m : String} (hm : m ≠ d0)
    (q' : Path) : lookupFS fs' (m :: q') = lookupFS fs (m :: q') := by
  unfold copy2FS at h
  cases hl : lookupFS fs src with
  | none => rw [hl] at h; exact Except.noConfusion h
  | some x =>
    cases x with
    | dir cs => rw [hl] at h; exact Except.noConfusion h
    | file c =>
      rw [hl] at h
      dsimp only at h
      by_cases hdir : isDirAt fs (d0 :: drest) = true
      · rw [if_pos hdir] at h
        cases hgl : src.getLast? with
        | none => rw [hgl] at h; exact Except.noConfusion h
        | some b =>
          rw [hgl] at h
          dsimp only at h
          exact writeFileFS_ok_lookup_disj h (pathDisj_of_head_ne (Ne.symm hm))
      · rw [if_neg hdir] at h
        exact writeFileFS_ok_lookup_disj h (pathDisj_of_head_ne (Ne.symm hm))

theorem copytreeFS_ok_head {fs fs' : FS} {src : Path} {d0 : String}
    {drest : Path} (h : copytreeFS fs src (d0 :: drest) = .ok fs')
    {m : String} (hm : m ≠ d0) (q' : Path) :
    lookupFS fs' (m :: q') = lookupFS fs (m :: q') := by
  unfold copytreeFS at h
  cases hl : lookupFS fs src with
  | none => rw [hl] at h; exact Except.noConfusion h
  | some x =>
    cases x with
    | file c => rw [hl] at h; exact Except.noConfusion h
    | dir cs =>
      rw [hl] at h
      dsimp only at h
      by_cases hex : pathExists fs (d0 :: drest) = true
      · rw [if_pos hex] at h; exact Except.noConfusion h
      · rw [if_neg hex] at h
        cases hmk : makedirsFS fs ((d0 :: drest).dropLast) with
        | error msg => rw [hmk] at h; exact Except.noConfusion h
        | ok fs1 =>
          rw [hmk] at h
          have hstep2 := @setEntryFS_ok_lookup_disj _ _ _ _ h
            (m :: q') (pathDisj_of_head_ne (Ne.symm hm))
          rw [hstep2]
          rcases cons_dropLast_shape d0 drest with hdl | ⟨l', hdl⟩
          · rw [hdl] at hmk
            simp only [makedirsFS, Except.ok.injEq] at hmk
            rw [hmk]
          · rw [hdl] at hmk
            exact makedirsFS_ok_lookup_disj hmk
              (pathDisj_of_head_ne (Ne.symm hm))

theorem backupOne_head {fs : FS} {p : Path} (hp : p ≠ []) {m : String}
    (hm : m ≠ "_backup") (q' : Path) :
    lookupFS (endFS (backupOne fs p)) (m :: q') = lookupFS fs (m :: q') := by
  have hdl : ("_backup" :: p).dropLast = "_backup" :: p.dropLast := by
    cases p with
    | nil => exact absurd rfl hp
    | cons x xs => rfl
  unfold backupOne
  by_cases hex : pathExists fs p = true
  · rw [if_pos hex]
    cases hmk : makedirsFS fs (("_backup" :: p).dropLast) with
    | error msg => simp [seqE, liftE, hmk, endFS]
    | ok fs1 =>
      have h1 : lookupFS fs1 (m :: q') = lookupFS fs (m :: q') := by
        rw [hdl] at hmk
        exact makedirsFS_ok_lookup_disj hmk (pathDisj_of_head_ne (Ne.symm hm))
      simp only [hmk, liftE, seqE]
      by_cases hdir : isDirAt fs1 p = true
      · rw [if_pos hdir]
        by_cases hex2 : pathExists fs1 ("_backup" :: p) = true
        · rw [if_pos hex2]
          cases hrm : rmtreeFS fs1 ("_backup" :: p) with
          | error msg => simp [seqE, liftE, hrm, endFS, h1]
          | ok fs2 =>
            have h2 : lookupFS fs2 (m :: q') = lookupFS fs1 (m :: q') :=
              rmtreeFS_ok_lookup_disj hrm (pathDisj_of_head_ne (Ne.symm hm))
            simp only [hrm, liftE, seqE]
            cases hct : copytreeFS fs2 p ("_backup" :: p) with
            | error msg => simp [liftE, endFS, h2, h1]
            | ok fs3 =>
              simp only [hct, liftE, endFS]
              rw [copytreeFS_ok_head hct hm q', h2, h1]
        · rw [if_neg hex2]
          simp only [seqE]
          cases hct : copytreeFS fs1 p ("_backup" :: p) with
          | error msg => simp [liftE, endFS, h1]
          | ok fs3 =>
            simp only [hct, liftE, endFS]
            rw [copytreeFS_ok_head hct hm q', h1]
      · rw [if_neg hdir]
        cases hcp : copy2FS fs1 p ("_backup" :: p) with
        | error msg => simp [liftE, endFS, hcp, h1]
        | ok fs2 =>
          simp only [hcp, liftE, endFS]
          rw [copy2FS_ok_head hcp hm q', h1]
  · rw [if_neg hex]
    rfl

theorem backupPhase_head {fs : FS} {m : String} (hm : m ≠ "_backup")
    (q' : Path) :
    lookupFS (endFS (backupPhase fs)) (m :: q') = lookupFS fs (m :: q') := by
  unfold backupPhase
  cases hmk : makedirsFS fs ["_backup"] with
  | error msg => simp [seqE, liftE, hmk, endFS]
  | ok fs1 =>
    have h1 : lookupFS fs1 (m :: q') = lookupFS fs (m :: q') :=
      makedirsFS_ok_lookup_disj hmk (pathDisj_of_head_ne (Ne.symm hm))
    simp only [hmk, liftE, seqE]
    have hb1 := @backupOne_head fs1 ["esp32", "boards.txt"]
      (by simp) m hm q'
    cases hone : backupOne fs1 ["esp32", "boards.txt"] with
    | error e =>
      rw [hone] at hb1
      simp only [seqE, endFS] at hb1 ⊢
      rw [hb1, h1]
    | ok fs2 =>
      rw [hone] at hb1
      simp only [endFS] at hb1
      simp only [seqE]
      rw [@backupOne_head fs2 ["esp32", "variants", "bpad_proto1"]
        (by simp) m hm q', hb1, h1]

theorem extractPhase_head {fs : FS} {ar : Archive} {m : String}
    (hm : m ≠ "_temp_extract") (q' : Path) :
    lookupFS (endFS (extractPhase fs ar)) (m :: q') = lookupFS fs (m :: q') := by
  unfold extractPhase
  by_cases hex : pathExists fs ["_temp_extract"] = true
  · rw [if_pos hex]
    cases hrm : rmtreeFS fs ["_temp_extract"] with
    | error msg => simp [seqE, liftE, hrm, endFS]
    | ok fs1 =>
      have h1 : lookupFS fs1 (m :: q') = lookupFS fs (m :: q') :=
        rmtreeFS_ok_lookup_disj hrm (pathDisj_of_head_ne (Ne.symm hm))
      simp only [hrm, liftE, seqE]
      cases het : extractTree ar with
      | error msg => simpa [endFS] using h1
      | ok t =>
        simp only [endFS]
        rw [lookupFS_setChild, if_neg hm]
        exact h1
  · rw [if_neg hex]
    simp only [seqE]
    cases het : extractTree ar with
    | error msg => simp [endFS]
    | ok t =>
      simp only [endFS]
      rw [lookupFS_setChild, if_neg hm]

theorem extractPhase_ok_inv {fs fs' : FS} {ar : Archive}
    (h : extractPhase fs ar = .ok fs') :
    ∃ t, extractTree ar = .ok t ∧
      lookupFS fs' ["_temp_extract"] = some (.dir t) := by
  unfold extractPhase at h
  by_cases hex : pathExists fs ["_temp_extract"] = true
  · rw [if_pos hex] at h
    cases hrm : rmtreeFS fs ["_temp_extract"] with
    | error msg => rw [hrm] at h; simp [liftE, seqE] at h
    | ok fs1 =>
      rw [hrm] at h
      simp only [liftE, seqE] at h
      cases het : extractTree ar with
      | error msg => rw [het] at h; exact Except.noConfusion h
      | ok t =>
        rw [het] at h
        simp only [Except.ok.injEq] at h
        subst h
        exact ⟨t, rfl, by rw [lookupFS_setChild, if_pos rfl]; rfl⟩
  · rw [if_neg hex] at h
    simp only [seqE] at h
    cases het : extractTree ar with
    | error msg => rw [het] at h; exact Except.noConfusion h
    | ok t =>
      rw [het] at h
      simp only [Except.ok.injEq] at h
      subst h
      exact ⟨t, rfl, by rw [lookupFS_setChild, if_pos rfl]; rfl⟩

theorem setupChain_noTopDir {fs1 : FS} {ar : Archive} {t : FS}
    (ht : extractTree ar = .ok t) (hnone : firstDir t = none) :
    ∃ m fsE, setupSteps fs1 ar = .error (m, fsE) ∧
      lookupFS fsE ["esp32"] = lookupFS fs1 ["esp32"] := by
  unfold setupSteps
  cases hb : backupPhase fs1 with
  | error e =>
    obtain ⟨m0, fsE⟩ := e
    refine ⟨m0, fsE, rfl, ?_⟩
    have := @backupPhase_head fs1 "esp32" (by decide) []
    rw [hb] at this
    simpa [endFS] using this
  | ok a =>
    have hba : lookupFS a ["esp32"] = lookupFS fs1 ["esp32"] := by
      have := @backupPhase_head fs1 "esp32" (by decide) []
      rw [hb] at this
      simpa [endFS] using this
    simp only [seqE]
    cases he : extractPhase a ar with
    | error e =>
      obtain ⟨m0, fsE⟩ := e
      refine ⟨m0, fsE, rfl, ?_⟩
      have := @extractPhase_head a ar "esp32" (by decide) []
      rw [he] at this
      simp only [endFS] at this
      rw [this, hba]
    | ok b =>
      have hbb : lookupFS b ["esp32"] = lookupFS fs1 ["esp32"] := by
        have := @extractPhase_head a ar "esp32" (by decide) []
        rw [he] at this
        simp only [endFS] at this
        rw [this, hba]
      obtain ⟨t', ht', hlb⟩ := extractPhase_ok_inv he
      rw [ht] at ht'
      obtain rfl : t = t' := by
        simpa using ht'
      simp only [seqE]
      refine ⟨"ERROR: Could not find extracted directory!", b, ?_, hbb⟩
      unfold replacePhase
      rw [hlb]
      simp [hnone, seqE]

/-- C3: for an archive whose extraction yields no top-level directory, the
setup run always exits nonzero, and the vendor tree (hence any sentinel
file inside it) is exactly what it was before the run — its deletion is
never reached. -/
theorem claim_C3 (fs0 : FS) (ar : Archive) (t : FS)
    (ht : extractTree ar = .ok t) (hnone : firstDir t = none) :
    (setupRun fs0 ar).errMsg.isSome = true ∧
    lookupFS (setupRun fs0 ar).fs ["esp32"] = lookupFS fs0 ["esp32"] := by
  obtain ⟨m, fsE, hch, hlook⟩ :=
    @setupChain_noTopDir (fetchedFS fs0) ar t ht hnone
  unfold setupRun
  rw [hch]
  refine ⟨rfl, ?_⟩
  dsimp only
  rw [hlook]
  unfold fetchedFS
  split
  · rw [lookupFS_setChild, if_neg (by decide)]
  · rfl

/-- A pre-populated vendor tree with a sentinel file, and an archive whose
extraction yields only a top-level regular file, for the C3 witness. -/
def c3FS : FS := [("esp32", .dir [("sentinel.txt", .file "keep me")])]

def c3Ar : Archive := [⟨["file.txt"], some "x"⟩]

/-- Witness for C3 at a concrete state and archive. -/
theorem claim_C3_witness :
    (extractTree c3Ar = .ok [("file.txt", .file "x")] ∧
      firstDir [("file.txt", FSEntry.file "x")] = none) ∧
    ((setupRun c3FS c3Ar).errMsg.isSome = true ∧
     lookupFS (setupRun c3FS c3Ar).fs ["esp32"] = lookupFS c3FS ["esp32"]) :=
  ⟨⟨rfl, rfl⟩, claim_C3 c3FS c3Ar [("file.txt", .file "x")] rfl rfl⟩

/-! ## C1: preservation of the locally-owned paths -/

/-- A state whose vendor tree holds `boards.txt` as a regular file, and an
archive whose single top-level directory ships `boards.txt` as a
directory. -/
def c1FS : FS := [("esp32", .dir [("boards.txt", .file "X")])]

def c1Ar : Archive :=
  [⟨["esp32-2.0.17"], none⟩, ⟨["esp32-2.0.17", "boards.txt"], none⟩]

/-- Counterexample to C1 as stated: this setup run completes successfully
and the preserved path `esp32/boards.txt` existed before the run as a
regular file, yet after the run the path holds a directory, not that file.
The restore step's file branch does not remove an existing directory at the
destination, so `shutil.copy2` copies the backup into the vendor-supplied
directory instead of over it. -/
theorem claim_C1_counterexample :
    (setupRun c1FS c1Ar).errMsg = none ∧
    lookupFS c1FS ["esp32", "boards.txt"] = some (.file "X") ∧
    ¬ lookupFS (setupRun c1FS c1Ar).fs ["esp32", "boards.txt"]
        = some (.file "X") := by
  refine ⟨rfl, rfl, ?_⟩
  intro hcontra
  have h1 : isDirO (lookupFS (setupRun c1FS c1Ar).fs ["esp32", "boards.txt"])
      = true := rfl
  rw [hcontra] at h1
  exact absurd h1 (by decide)

theorem isDirO_file (c : String) : isDirO (some (.file c)) = false := rfl

theorem isDirO_dir (cs : FS) : isDirO (some (.dir cs)) = true := rfl

theorem lookupFS_singleton (fs : FS) (n : String) :
    lookupFS fs [n] = findChild fs n := by
  rw [lookupFS_cons]
  cases findChild fs n with
  | none => rfl
  | some e => simp [lookupE]

theorem lookupFS_cons_of_singleton {fs : FS} {n : String} {e : FSEntry}
    (h : lookupFS fs [n] = some e) (q : Path) :
    lookupFS fs (n :: q) = lookupE e q := by
  rw [lookupFS_singleton] at h
  rw [lookupFS_cons, h]

theorem pathDisj_append_one {d q : Path} (b : String) (hd : pathDisj d q) :
    pathDisj (d ++ [b]) q := by
  constructor
  · intro hp
    exact hd.1 ((List.prefix_append d [b]).trans hp)
  · intro hp
    by_cases hlen : q.length ≤ d.length
    · exact hd.2 (List.prefix_of_prefix_length_le hp (List.prefix_append d [b]) hlen)
    · have hql : q.length ≤ d.length + 1 := by
        have := hp.length_le
        simpa using this
      have heq : q = d ++ [b] := hp.eq_of_length (by simp; omega)
      exact hd.1 (heq ▸ List.prefix_append d [b])

theorem makedirsFS_none {fs fs' : FS} {P : Path} (h : makedirsFS fs P = .ok fs') :
    ∀ {q : Path}, lookupFS fs q = none → ¬ q <+: P → lookupFS fs' q = none := by
  induction P generalizing fs fs' with
  | nil =>
    intro q hq _
    simp only [makedirsFS, Except.ok.injEq] at h
    subst h
    exact hq
  | cons n P' ih =>
    intro q hq hnp
    cases q with
    | nil => simp [lookupFS, lookupE] at hq
    | cons m q' =>
      by_cases hmn : m = n
      · subst hmn
        have hnp' : ¬ q' <+: P' := fun hpre =>
          hnp (List.cons_prefix_cons.mpr ⟨rfl, hpre⟩)
        cases hfc : findChild fs m with
        | none =>
          simp only [makedirsFS, hfc, Except.ok.injEq] at h
          subst h
          rw [lookupFS_setChild, if_pos rfl]
          exact lookupFS_mkChain hnp'
        | some x =>
          cases x with
          | file c => simp [makedirsFS, hfc] at h
          | dir cs =>
            cases hrec : makedirsFS cs P' with
            | error msg => simp [makedirsFS, hfc, hrec] at h
            | ok cs' =>
              simp only [makedirsFS, hfc, hrec, Except.ok.injEq] at h
              subst h
              rw [lookupFS_setChild, if_pos rfl]
              have hq' : lookupFS cs q' = none := by
                rw [lookupFS_cons, hfc] at hq
                exact hq
              exact ih hrec hq' hnp'
      · cases hfc : findChild fs n with
        | none =>
          simp only [makedirsFS, hfc, Except.ok.injEq] at h
          subst h
          rw [lookupFS_setChild, if_neg hmn]
          exact hq
        | some x =>
          cases x with
          | file c => simp [makedirsFS, hfc] at h
          | dir cs =>
            cases hrec : makedirsFS cs P' with
            | error msg => simp [makedirsFS, hfc, hrec] at h
            | ok cs' =>
              simp only [makedirsFS, hfc, hrec, Except.ok.injEq] at h
              subst h
              rw [lookupFS_setChild, if_neg hmn]
              exact hq

theorem fetchedFS_lookup (fs0 : FS) {m : String} (hm : m ≠ ESP32_ZIP_FILE)
    (q' : Path) :
    lookupFS (fetchedFS fs0) (m :: q') = lookupFS fs0 (m :: q') := by
  unfold fetchedFS
  split
  · rw [lookupFS_setChild, if_neg hm]
  · rfl

theorem fetchedFS_wf {fs0 : FS} (hwf : wfFS fs0 = true) :
    wfFS (fetchedFS fs0) = true := by
  unfold fetchedFS
  split
  · exact wf_setChild hwf (wfE_file _)
  · exact hwf

theorem backupOne_wf {fs fs' : FS} {p : Path} (h : backupOne fs p = .ok fs')
    (hwf : wfFS fs = true) : wfFS fs' = true := by
  unfold backupOne at h
  by_cases hex : pathExists fs p = true
  · rw [if_pos hex] at h
    cases hmk : makedirsFS fs (("_backup" :: p).dropLast) with
    | error msg => rw [hmk] at h; simp [liftE, seqE] at h
    | ok fs1 =>
      rw [hmk] at h
      simp only [liftE, seqE] at h
      have hwf1 := wf_makedirsFS hmk hwf
      by_cases hdir : isDirAt fs1 p = true
      · rw [if_pos hdir] at h
        by_cases hex2 : pathExists fs1 ("_backup" :: p) = true
        · rw [if_pos hex2] at h
          cases hrm : rmtreeFS fs1 ("_backup" :: p) with
          | error msg => rw [hrm] at h; simp [liftE, seqE] at h
          | ok fs2 =>
            rw [hrm] at h
            simp only [liftE, seqE] at h
            cases hct : copytreeFS fs2 p ("_backup" :: p) with
            | error msg =>
              rw [hct] at h
              dsimp only at h
              exact Except.noConfusion h
            | ok fs3 =>
              rw [hct] at h
              dsimp only at h
              simp only [Except.ok.injEq] at h
              subst h
              exact wf_copytreeFS hct (wf_rmtreeFS hrm hwf1)
        · rw [if_neg hex2] at h
          simp only [liftE, seqE] at h
          cases hct : copytreeFS fs1 p ("_backup" :: p) with
          | error msg =>
            rw [hct] at h
            dsimp only at h
            exact Except.noConfusion h
          | ok fs3 =>
            rw [hct] at h
            dsimp only at h
            simp only [Except.ok.injEq] at h
            subst h
            exact wf_copytreeFS hct hwf1
      · rw [if_neg hdir] at h
        cases hcp : copy2FS fs1 p ("_backup" :: p) with
        | error msg =>
          rw [hcp] at h
          dsimp only at h
          exact Except.noConfusion h
        | ok fs2 =>
          rw [hcp] at h
          dsimp only at h
          simp only [Except.ok.injEq] at h
          subst h
          exact wf_copy2FS hcp hwf1
  · rw [if_neg hex] at h
    simp only [Except.ok.injEq] at h
    subst h
    exact hwf

theorem backupPhase_wf {fs fs' : FS} (h : backupPhase fs = .ok fs')
    (hwf : wfFS fs = true) : wfFS fs' = true := by
  unfold backupPhase at h
  obtain ⟨a0, h1, h2⟩ := seqE_eq_ok.mp h
  rw [liftE_eq_ok] at h1
  obtain ⟨a1, h3, h4⟩ := seqE_eq_ok.mp h2
  exact backupOne_wf h4 (backupOne_wf h3 (wf_makedirsFS h1 hwf))

theorem makedirsFS_lookup_of_not_prefix {fs fs' : FS} {P : Path}
    (h : makedirsFS fs P = .ok fs') :
    ∀ {q : Path}, ¬ q <+: P → lookupFS fs' q = lookupFS fs q := by
  induction P generalizing fs fs' with
  | nil =>
    intro q _
    simp only [makedirsFS, Except.ok.injEq] at h
    subst h
    rfl
  | cons n P' ih =>
    intro q hq
    cases q with
    | nil => exact absurd List.nil_prefix hq
    | cons m q' =>
      by_cases hmn : m = n
      · subst hmn
        have hq' : ¬ q' <+: P' := fun hpre =>
          hq (List.cons_prefix_cons.mpr ⟨rfl, hpre⟩)
        cases hfc : findChild fs m with
        | none =>
          simp only [makedirsFS, hfc, Except.ok.injEq] at h
          subst h
          rw [lookupFS_setChild, if_pos rfl, lookupFS_cons, hfc]
          exact lookupFS_mkChain hq'
        | some x =>
          cases x with
          | file c => simp [makedirsFS, hfc] at h
          | dir cs =>
            cases hrec : makedirsFS cs P' with
            | error msg => simp [makedirsFS, hfc, hrec] at h
            | ok cs' =>
              simp only [makedirsFS, hfc, hrec, Except.ok.injEq] at h
              subst h
              rw [lookupFS_setChild, if_pos rfl, lookupFS_cons, hfc]
              exact ih hrec hq'
      · cases hfc : findChild fs n with
        | none =>
          simp only [makedirsFS, hfc, Except.ok.injEq] at h
          subst h
          rw [lookupFS_setChild, if_neg hmn]
        | some x =>
          cases x with
          | file c => simp [makedirsFS, hfc] at h
          | dir cs =>
            cases hrec : makedirsFS cs P' with
            | error msg => simp [makedirsFS, hfc, hrec] at h
            | ok cs' =>
              simp only [makedirsFS, hfc, hrec, Except.ok.injEq] at h
              subst h
              rw [lookupFS_setChild, if_neg hmn]

theorem copy2FS_ok_lookup_disj {fs fs' : FS} {src dst : Path}
    (h : copy2FS fs src dst = .ok fs') {q : Path} (hd : pathDisj dst q) :
    lookupFS fs' q = lookupFS fs q := by
  unfold copy2FS at h
  cases hl : lookupFS fs src with
  | none => rw [hl] at h; exact Except.noConfusion h
  | some x =>
    cases x with
    | dir cs => rw [hl] at h; exact Except.noConfusion h
    | file c =>
      rw [hl] at h
      dsimp only at h
      by_cases hdir : isDirAt fs dst = true
      · rw [if_pos hdir] at h
        cases hgl : src.getLast? with
        | none => rw [hgl] at h; exact Except.noConfusion h
        | some b =>
          rw [hgl] at h
          dsimp only at h
          exact writeFileFS_ok_lookup_disj h (pathDisj_append_one b hd)
      · rw [if_neg hdir] at h
        exact writeFileFS_ok_lookup_disj h hd

theorem copytreeFS_ok_lookup_disj {fs fs' : FS} {src dst : Path}
    (h : copytreeFS fs src dst = .ok fs') {q : Path}
    (hd : pathDisj dst q) (hnp : ¬ q <+: dst.dropLast) :
    lookupFS fs' q = lookupFS fs q := by
  unfold copytreeFS at h
  cases hl : lookupFS fs src with
  | none => rw [hl] at h; exact Except.noConfusion h
  | some x =>
    cases x with
    | file c => rw [hl] at h; exact Except.noConfusion h
    | dir cs =>
      rw [hl] at h
      dsimp only at h
      by_cases hex : pathExists fs dst = true
      · rw [if_pos hex] at h; exact Except.noConfusion h
      · rw [if_neg hex] at h
        cases hmk : makedirsFS fs dst.dropLast with
        | error msg => rw [hmk] at h; exact Except.noConfusion h
        | ok fs1 =>
          rw [hmk] at h
          rw [setEntryFS_ok_lookup_disj h hd]
          exact makedirsFS_lookup_of_not_prefix hmk hnp

theorem backupOne_spec {fs fs' : FS} {p0 : String} {prest : Path}
    (h : backupOne fs (p0 :: prest) = .ok fs') (hp0 : p0 ≠ "_backup")
    (hfree : lookupFS fs ("_backup" :: p0 :: prest) = none) :
    lookupFS fs' ("_backup" :: p0 :: prest) = lookupFS fs (p0 :: prest) := by
  unfold backupOne at h
  by_cases hex : pathExists fs (p0 :: prest) = true
  · rw [if_pos hex] at h
    cases hmk : makedirsFS fs (("_backup" :: p0 :: prest).dropLast) with
    | error msg => rw [hmk] at h; simp [liftE, seqE] at h
    | ok fs1 =>
      rw [hmk] at h
      simp only [liftE, seqE] at h
      have hnpre : ¬ ("_backup" :: p0 :: prest) <+:
          (("_backup" :: p0 :: prest).dropLast) := by
        intro hpre
        have hle := hpre.length_le
        rw [List.length_dropLast] at hle
        simp only [List.length_cons] at hle
        omega
      have hfree1 : lookupFS fs1 ("_backup" :: p0 :: prest) = none :=
        makedirsFS_none hmk hfree hnpre
      have hlookp : lookupFS fs1 (p0 :: prest) = lookupFS fs (p0 :: prest) := by
        have hdl : (("_backup" :: p0 :: prest).dropLast)
            = "_backup" :: (p0 :: prest).dropLast := rfl
        rw [hdl] at hmk
        exact makedirsFS_ok_lookup_disj hmk (pathDisj_of_head_ne (Ne.symm hp0))
      -- the source exists
      obtain ⟨e, he⟩ : ∃ e, lookupFS fs (p0 :: prest) = some e := by
        cases hl : lookupFS fs (p0 :: prest) with
        | none => rw [pathExists, hl] at hex; simp at hex
        | some e => exact ⟨e, rfl⟩
      by_cases hdir : isDirAt fs1 (p0 :: prest) = true
      · -- directory branch: the destination is absent, so no rmtree happens
        rw [if_pos hdir] at h
        have hex2 : pathExists fs1 ("_backup" :: p0 :: prest) = false := by
          rw [pathExists, hfree1]; rfl
        rw [if_neg (by rw [hex2]; exact Bool.false_ne_true)] at h
        simp only [seqE] at h
        -- the source is a directory
        obtain ⟨cs, hcs⟩ : ∃ cs, e = .dir cs := by
          cases e with
          | dir cs => exact ⟨cs, rfl⟩
          | file c =>
            rw [isDirAt, hlookp, he, isDirO_file] at hdir
            exact absurd hdir Bool.false_ne_true
        subst hcs
        -- copytree succeeds and installs exactly the source directory
        cases hct : copytreeFS fs1 (p0 :: prest) ("_backup" :: p0 :: prest) with
        | error msg => rw [hct] at h; dsimp only at h; exact Except.noConfusion h
        | ok fs2 =>
          rw [hct] at h
          dsimp only at h
          simp only [Except.ok.injEq] at h
          subst h
          unfold copytreeFS at hct
          rw [hlookp, he] at hct
          dsimp only at hct
          rw [if_neg (by rw [hex2]; exact Bool.false_ne_true)] at hct
          cases hmk2 : makedirsFS fs1 (("_backup" :: p0 :: prest).dropLast) with
          | error msg => rw [hmk2] at hct; exact Except.noConfusion hct
          | ok fs3 =>
            rw [hmk2] at hct
            rw [setEntryFS_ok_lookup_same hct, he]
      · -- file branch
        rw [if_neg hdir] at h
        obtain ⟨c, hcc⟩ : ∃ c, e = .file c := by
          cases e with
          | file c => exact ⟨c, rfl⟩
          | dir cs =>
            rw [isDirAt, hlookp, he] at hdir
            exact absurd (isDirO_dir cs) hdir
        subst hcc
        cases hcp : copy2FS fs1 (p0 :: prest) ("_backup" :: p0 :: prest) with
        | error msg => rw [hcp] at h; dsimp only at h; exact Except.noConfusion h
        | ok fs2 =>
          rw [hcp] at h
          dsimp only at h
          simp only [Except.ok.injEq] at h
          subst h
          unfold copy2FS at hcp
          rw [hlookp, he] at hcp
          dsimp only at hcp
          rw [if_neg (by rw [isDirAt, hfree1]; exact Bool.false_ne_true)] at hcp
          rw [writeFileFS_ok_lookup_same hcp, he]
  · rw [if_neg hex] at h
    simp only [Except.ok.injEq] at h
    subst h
    rw [hfree]
    cases hl : lookupFS fs (p0 :: prest) with
    | none => rfl
    | some e => rw [pathExists, hl] at hex; simp at hex

theorem backupOne_disj {fs fs' : FS} {p : Path}
    (h : backupOne fs p = .ok fs') {q : Path}
    (hd1 : pathDisj ("_backup" :: p) q)
    (hnp : ¬ q <+: (("_backup" :: p).dropLast)) :
    lookupFS fs' q = lookupFS fs q := by
  unfold backupOne at h
  by_cases hex : pathExists fs p = true
  · rw [if_pos hex] at h
    cases hmk : makedirsFS fs (("_backup" :: p).dropLast) with
    | error msg => rw [hmk] at h; simp [liftE, seqE] at h
    | ok fs1 =>
      rw [hmk] at h
      simp only [liftE, seqE] at h
      have h1 : lookupFS fs1 q = lookupFS fs q :=
        makedirsFS_lookup_of_not_prefix hmk hnp
      by_cases hdir : isDirAt fs1 p = true
      · rw [if_pos hdir] at h
        by_cases hex2 : pathExists fs1 ("_backup" :: p) = true
        · rw [if_pos hex2] at h
          cases hrm : rmtreeFS fs1 ("_backup" :: p) with
          | error msg => rw [hrm] at h; simp [liftE, seqE] at h
          | ok fs2 =>
            rw [hrm] at h
            simp only [liftE, seqE] at h
            have h2 : lookupFS fs2 q = lookupFS fs1 q :=
              rmtreeFS_ok_lookup_disj hrm hd1
            cases hct : copytreeFS fs2 p ("_backup" :: p) with
            | error msg =>
              rw [hct] at h; dsimp only at h; exact Except.noConfusion h
            | ok fs3 =>
              rw [hct] at h
              dsimp only at h
              simp only [Except.ok.injEq] at h
              subst h
              rw [copytreeFS_ok_lookup_disj hct hd1 hnp, h2, h1]
        · rw [if_neg hex2] at h
          simp only [liftE, seqE] at h
          cases hct : copytreeFS fs1 p ("_backup" :: p) with
          | error msg =>
            rw [hct] at h; dsimp only at h; exact Except.noConfusion h
          | ok fs3 =>
            rw [hct] at h
            dsimp only at h
            simp only [Except.ok.injEq] at h
            subst h
            rw [copytreeFS_ok_lookup_disj hct hd1 hnp, h1]
      · rw [if_neg hdir] at h
        cases hcp : copy2FS fs1 p ("_backup" :: p) with
        | error msg =>
          rw [hcp] at h; dsimp only at h; exact Except.noConfusion h
        | ok fs2 =>
          rw [hcp] at h
          dsimp only at h
          simp only [Except.ok.injEq] at h
          subst h
          rw [copy2FS_ok_lookup_disj hcp hd1, h1]
  · rw [if_neg hex] at h
    simp only [Except.ok.injEq] at h
    subst h
    rfl

theorem backupOne_none {fs fs' : FS} {p : Path}
    (h : backupOne fs p = .ok fs') {q : Path}
    (hd1 : pathDisj ("_backup" :: p) q)
    (hnp : ¬ q <+: (("_backup" :: p).dropLast)) :
    lookupFS fs' q = lookupFS fs q :=
  backupOne_disj h hd1 hnp

theorem backupPhase_spec {fs fs' : FS} (h : backupPhase fs = .ok fs')
    (hnb : lookupFS fs ["_backup"] = none) :
    lookupFS fs' ["_backup", "esp32", "boards.txt"]
      = lookupFS fs ["esp32", "boards.txt"] ∧
    lookupFS fs' ["_backup", "esp32", "variants", "bpad_proto1"]
      = lookupFS fs ["esp32", "variants", "bpad_proto1"] := by
  unfold backupPhase at h
  obtain ⟨a0, h1, h2⟩ := seqE_eq_ok.mp h
  rw [liftE_eq_ok] at h1
  have hfc : findChild fs "_backup" = none := by
    rw [← lookupFS_singleton]; exact hnb
  simp only [makedirsFS, hfc, Except.ok.injEq] at h1
  subst h1
  obtain ⟨a1, h3, h4⟩ := seqE_eq_ok.mp h2
  have ha0b : ∀ q, q ≠ [] →
      lookupFS (setChild fs "_backup" (.dir (mkChain []))) ("_backup" :: q)
        = none := by
    intro q hq
    rw [lookupFS_setChild, if_pos rfl]
    cases q with
    | nil => exact absurd rfl hq
    | cons x xs => rfl
  have ha0p : ∀ q', lookupFS (setChild fs "_backup" (.dir (mkChain [])))
      ("esp32" :: q') = lookupFS fs ("esp32" :: q') := by
    intro q'
    rw [lookupFS_setChild, if_neg (by decide)]
  have hval1 : lookupFS a1 ["_backup", "esp32", "boards.txt"]
      = lookupFS fs ["esp32", "boards.txt"] := by
    rw [backupOne_spec h3 (by decide) (ha0b ["esp32", "boards.txt"] (by simp)),
      ha0p]
  have hfree2 : lookupFS a1 ["_backup", "esp32", "variants", "bpad_proto1"]
      = none := by
    rw [@backupOne_none _ _ _ h3
      ["_backup", "esp32", "variants", "bpad_proto1"] (by decide) (by decide)]
    exact ha0b ["esp32", "variants", "bpad_proto1"] (by simp)
  have hbp2 : lookupFS a1 ["esp32", "variants", "bpad_proto1"]
      = lookupFS fs ["esp32", "variants", "bpad_proto1"] := by
    have hbh := @backupOne_head (setChild fs "_backup" (.dir (mkChain [])))
      ["esp32", "boards.txt"] (by simp) "esp32" (by decide)
      ["variants", "bpad_proto1"]
    rw [h3] at hbh
    simp only [endFS] at hbh
    rw [hbh, ha0p]
  constructor
  · rw [backupOne_disj h4 (by decide) (by decide), hval1]
  · rw [backupOne_spec h4 (by decide) hfree2, hbp2]

theorem extractPhase_wf {fs fs' : FS} {ar : Archive}
    (h : extractPhase fs ar = .ok fs') (hwf : wfFS fs = true) :
    wfFS fs' = true := by
  unfold extractPhase at h
  obtain ⟨fs1, h1, h2⟩ := seqE_eq_ok.mp h
  have hwf1 : wfFS fs1 = true := by
    by_cases hex : pathExists fs ["_temp_extract"] = true
    · rw [if_pos hex, liftE_eq_ok] at h1
      exact wf_rmtreeFS h1 hwf
    · rw [if_neg hex] at h1
      simp only [Except.ok.injEq] at h1
      subst h1
      exact hwf
  cases het : extractTree ar with
  | error msg => rw [het] at h2; exact Except.noConfusion h2
  | ok t =>
    rw [het] at h2
    simp only [Except.ok.injEq] at h2
    subst h2
    exact wf_setChild hwf1 (by rw [wfE_dir]; exact wf_extractTree het)

theorem replacePhase_spec {fs fs' : FS} (hwf : wfFS fs = true)
    {t : FS} (hlt : lookupFS fs ["_temp_extract"] = some (.dir t))
    (h : replacePhase fs = .ok fs') :
    ∃ d sub, firstDir t = some (d, sub) ∧
      lookupFS fs' ["esp32"] = some sub ∧
      ∀ (m : String) (q' : Path), m ≠ "esp32" → m ≠ "_temp_extract" →
        lookupFS fs' (m :: q') = lookupFS fs (m :: q') := by
  unfold replacePhase at h
  rw [hlt] at h
  dsimp only at h
  cases hsel : firstDir t with
  | none => rw [hsel] at h; exact Except.noConfusion h
  | some ds =>
    obtain ⟨d, sub⟩ := ds
    rw [hsel] at h
    dsimp only at h
    refine ⟨d, sub, rfl, ?_⟩
    obtain ⟨fsA, hA, hrest⟩ := seqE_eq_ok.mp h
    have hAfacts : lookupFS fsA ["esp32"] = none ∧ wfFS fsA = true ∧
        ∀ (m : String) (q' : Path), m ≠ "esp32" →
          lookupFS fsA (m :: q') = lookupFS fs (m :: q') := by
      by_cases hex : pathExists fs ["esp32"] = true
      · rw [if_pos hex, liftE_eq_ok] at hA
        refine ⟨?_, wf_rmtreeFS hA hwf,
          fun m q' hm => rmtreeFS_ok_lookup_disj hA
            (pathDisj_of_head_ne (Ne.symm hm))⟩
        rw [lookupFS_singleton]
        exact removeFS_singleton_findChild (rmtreeFS_ok_removeFS hA) hwf
      · rw [if_neg hex] at hA
        simp only [Except.ok.injEq] at hA
        subst hA
        refine ⟨?_, hwf, fun _ _ _ => rfl⟩
        cases hl : lookupFS fs ["esp32"] with
        | none => rfl
        | some e => rw [pathExists, hl] at hex; simp at hex
    obtain ⟨hAnone, hwfA, hApres⟩ := hAfacts
    have hAtemp : lookupFS fsA ["_temp_extract"] = some (.dir t) := by
      rw [hApres "_temp_extract" [] (by decide)]
      exact hlt
    obtain ⟨fsB, hBm, hCc⟩ := seqE_eq_ok.mp hrest
    rw [liftE_eq_ok] at hBm
    have hwft : wfFS t = true := by
      have := wf_lookupFS hAtemp hwfA
      rwa [wfE_dir] at this
    have hsrc : lookupFS fsA ["_temp_extract", d] = some sub := by
      rw [lookupFS_cons_of_singleton hAtemp [d], lookupE,
        wf_firstDir_findChild hwft hsel]
      cases sub <;> rfl
    unfold moveFS at hBm
    rw [hsrc] at hBm
    dsimp only at hBm
    have hnd : ¬ isDirAt fsA ["esp32"] = true := by
      rw [isDirAt, hAnone]
      exact Bool.false_ne_true
    rw [if_neg hnd] at hBm
    cases hrm : removeFS fsA ["_temp_extract", d] with
    | error msg => rw [hrm] at hBm; exact Except.noConfusion hBm
    | ok fsR =>
      rw [hrm] at hBm
      dsimp only at hBm
      have hRpres : ∀ (m : String) (q' : Path), m ≠ "_temp_extract" →
          lookupFS fsR (m :: q') = lookupFS fsA (m :: q') :=
        fun m q' hm => removeFS_ok_lookup_disj hrm
          (pathDisj_of_head_ne (Ne.symm hm))
      have hBesp : lookupFS fsB ["esp32"] = some sub :=
        setEntryFS_ok_lookup_same hBm
      have hBpres : ∀ (m : String) (q' : Path), m ≠ "esp32" →
          m ≠ "_temp_extract" →
          lookupFS fsB (m :: q') = lookupFS fs (m :: q') := by
        intro m q' hm1 hm2
        rw [setEntryFS_ok_lookup_disj hBm
          (pathDisj_of_head_ne (Ne.symm hm1)), hRpres m q' hm2,
          hApres m q' hm1]
      by_cases hex2 : pathExists fsB ["_temp_extract"] = true
      · rw [if_pos hex2, liftE_eq_ok] at hCc
        constructor
        · rw [rmtreeFS_ok_lookup_disj hCc (pathDisj_of_head_ne (by decide))]
          exact hBesp
        · intro m q' hm1 hm2
          rw [rmtreeFS_ok_lookup_disj hCc
            (pathDisj_of_head_ne (Ne.symm hm2)), hBpres m q' hm1 hm2]
      · rw [if_neg hex2] at hCc
        simp only [Except.ok.injEq] at hCc
        subst hCc
        exact ⟨hBesp, hBpres⟩

theorem restoreOne_value {fs fs' : FS} {p : Path} {e : FSEntry}
    (h : restoreOne fs p = .ok fs')
    (hdj : pathDisj p ("_backup" :: p))
    (hb : lookupFS fs ("_backup" :: p) = some e)
    (hnd : ∀ c, e = .file c → isDirAt fs p = false) :
    lookupFS fs' p = some e := by
  unfold restoreOne at h
  have hexb : pathExists fs ("_backup" :: p) = true := by
    rw [pathExists, hb]; rfl
  rw [if_pos hexb] at h
  cases e with
  | dir cs =>
    have hdirb : isDirAt fs ("_backup" :: p) = true := by
      rw [isDirAt, hb]; exact isDirO_dir cs
    rw [if_pos hdirb] at h
    obtain ⟨fs1, h1, h2⟩ := seqE_eq_ok.mp h
    rw [liftE_eq_ok] at h2
    have hb1 : lookupFS fs1 ("_backup" :: p) = some (.dir cs) := by
      by_cases hex : pathExists fs p = true
      · rw [if_pos hex, liftE_eq_ok] at h1
        rw [rmtreeFS_ok_lookup_disj h1 hdj]
        exact hb
      · rw [if_neg hex] at h1
        simp only [Except.ok.injEq] at h1
        subst h1
        exact hb
    unfold copytreeFS at h2
    rw [hb1] at h2
    dsimp only at h2
    by_cases hex2 : pathExists fs1 p = true
    · rw [if_pos hex2] at h2
      exact Except.noConfusion h2
    · rw [if_neg hex2] at h2
      cases hmk : makedirsFS fs1 p.dropLast with
      | error msg => rw [hmk] at h2; exact Except.noConfusion h2
      | ok fs2 =>
        rw [hmk] at h2
        exact setEntryFS_ok_lookup_same h2
  | file c =>
    have hdirb : ¬ isDirAt fs ("_backup" :: p) = true := by
      rw [isDirAt, hb, isDirO_file]
      exact Bool.false_ne_true
    rw [if_neg hdirb, liftE_eq_ok] at h
    unfold copy2FS at h
    rw [hb] at h
    dsimp only at h
    rw [if_neg (by rw [hnd c rfl]; exact Bool.false_ne_true)] at h
    exact writeFileFS_ok_lookup_same h

theorem restoreOne_disj {fs fs' : FS} {p : Path}
    (h : restoreOne fs p = .ok fs') {q : Path}
    (hd1 : pathDisj p q) (hnp : ¬ q <+: p.dropLast) :
    lookupFS fs' q = lookupFS fs q := by
  unfold restoreOne at h
  by_cases hexb : pathExists fs ("_backup" :: p) = true
  · rw [if_pos hexb] at h
    by_cases hdirb : isDirAt fs ("_backup" :: p) = true
    · rw [if_pos hdirb] at h
      obtain ⟨fs1, h1, h2⟩ := seqE_eq_ok.mp h
      rw [liftE_eq_ok] at h2
      have hq1 : lookupFS fs1 q = lookupFS fs q := by
        by_cases hex : pathExists fs p = true
        · rw [if_pos hex, liftE_eq_ok] at h1
          exact rmtreeFS_ok_lookup_disj h1 hd1
        · rw [if_neg hex] at h1
          simp only [Except.ok.injEq] at h1
          subst h1
          rfl
      rw [copytreeFS_ok_lookup_disj h2 hd1 hnp, hq1]
    · rw [if_neg hdirb, liftE_eq_ok] at h
      exact copy2FS_ok_lookup_disj h hd1
  · rw [if_neg hexb] at h
    simp only [Except.ok.injEq] at h
    subst h
    rfl

theorem patchPhase_disj {fs fs' : FS} (h : patchPhase fs = .ok fs')
    {q : Path} (hd : pathDisj ["esp32", "platform.txt"] q) :
    lookupFS fs' q = lookupFS fs q := by
  unfold patchPhase at h
  by_cases hex : pathExists fs ["esp32", "platform.txt"] = true
  · rw [if_pos hex] at h
    cases hrd : readFileFS fs ["esp32", "platform.txt"] with
    | error m => rw [hrd] at h; exact Except.noConfusion h
    | ok content =>
      rw [hrd] at h
      dsimp only at h
      rw [liftE_eq_ok] at h
      exact writeFileFS_ok_lookup_disj h hd
  · rw [if_neg hex] at h
    simp only [Except.ok.injEq] at h
    subst h
    rfl

/-- C1 (amended): after a successful setup run that starts from a
well-formed state in which the holding area `_backup` does not already
exist, and whose archive does not ship a directory at a preserved path
that previously held a regular file, every preserved path
(`esp32/boards.txt` and `esp32/variants/bpad_proto1`) that existed before
the run holds exactly its prior entry afterwards — prior content for
files, recursive structure and content for directories — layered on top
of the freshly extracted vendor tree. -/
theorem claim_C1_amended (fs0 : FS) (ar : Archive)
    (hwf : wfFS fs0 = true)
    (hnb : lookupFS fs0 ["_backup"] = none)
    (hprov1 : isFileO (lookupFS fs0 ["esp32", "boards.txt"]) = true →
      vendorDirAt ar ["boards.txt"] = false)
    (hprov2 : isFileO (lookupFS fs0 ["esp32", "variants", "bpad_proto1"])
        = true →
      vendorDirAt ar ["variants", "bpad_proto1"] = false)
    (hrun : (setupRun fs0 ar).errMsg = none) :
    (∀ e, lookupFS fs0 ["esp32", "boards.txt"] = some e →
      lookupFS (setupRun fs0 ar).fs ["esp32", "boards.txt"] = some e) ∧
    (∀ e, lookupFS fs0 ["esp32", "variants", "bpad_proto1"] = some e →
      lookupFS (setupRun fs0 ar).fs ["esp32", "variants", "bpad_proto1"]
        = some e) := by
  obtain ⟨fsF, hok, hfsF⟩ : ∃ fsF, setupSteps (fetchedFS fs0) ar = .ok fsF ∧
      (setupRun fs0 ar).fs = fsF := by
    unfold setupRun at hrun ⊢
    cases hst : setupSteps (fetchedFS fs0) ar with
    | ok fsF => exact ⟨fsF, rfl, rfl⟩
    | error e =>
      rw [hst] at hrun
      obtain ⟨m, fsE⟩ := e
      exact Option.noConfusion hrun
  rw [hfsF]
  unfold setupSteps at hok
  obtain ⟨a, hA, hrest⟩ := seqE_eq_ok.mp hok
  obtain ⟨b, hB, hrest2⟩ := seqE_eq_ok.mp hrest
  obtain ⟨c, hC, hrest3⟩ := seqE_eq_ok.mp hrest2
  obtain ⟨dd, hD, hE⟩ := seqE_eq_ok.mp hrest3
  -- state after the (possible) download
  have hwf1 : wfFS (fetchedFS fs0) = true := fetchedFS_wf hwf
  have hnb1 : lookupFS (fetchedFS fs0) ["_backup"] = none := by
    rw [fetchedFS_lookup fs0 (by decide) []]
    exact hnb
  have hfp1 : lookupFS (fetchedFS fs0) ["esp32", "boards.txt"]
      = lookupFS fs0 ["esp32", "boards.txt"] :=
    fetchedFS_lookup fs0 (by decide) _
  have hfp2 : lookupFS (fetchedFS fs0) ["esp32", "variants", "bpad_proto1"]
      = lookupFS fs0 ["esp32", "variants", "bpad_proto1"] :=
    fetchedFS_lookup fs0 (by decide) _
  -- backup phase: both preserved paths are mirrored under _backup
  obtain ⟨hbv1, hbv2⟩ := backupPhase_spec hA hnb1
  have hwfa : wfFS a = true := backupPhase_wf hA hwf1
  -- extraction leaves the backup area untouched
  have hev1 : lookupFS b ["_backup", "esp32", "boards.txt"]
      = lookupFS a ["_backup", "esp32", "boards.txt"] := by
    have hh := @extractPhase_head a ar "_backup" (by decide)
      ["esp32", "boards.txt"]
    rw [hB] at hh
    simpa only [endFS] using hh
  have hev2 : lookupFS b ["_backup", "esp32", "variants", "bpad_proto1"]
      = lookupFS a ["_backup", "esp32", "variants", "bpad_proto1"] := by
    have hh := @extractPhase_head a ar "_backup" (by decide)
      ["esp32", "variants", "bpad_proto1"]
    rw [hB] at hh
    simpa only [endFS] using hh
  have hwfb : wfFS b = true := extractPhase_wf hB hwfa
  obtain ⟨t, ht, hlt⟩ := extractPhase_ok_inv hB
  -- the replace phase installs the selected vendor directory
  obtain ⟨dn, sub, hsel, hvend, hpres⟩ := replacePhase_spec hwfb hlt hC
  have hcv1 : lookupFS c ["_backup", "esp32", "boards.txt"]
      = lookupFS fs0 ["esp32", "boards.txt"] := by
    rw [hpres "_backup" ["esp32", "boards.txt"] (by decide) (by decide),
      hev1, hbv1, hfp1]
  have hcv2 : lookupFS c ["_backup", "esp32", "variants", "bpad_proto1"]
      = lookupFS fs0 ["esp32", "variants", "bpad_proto1"] := by
    rw [hpres "_backup" ["esp32", "variants", "bpad_proto1"]
      (by decide) (by decide), hev2, hbv2, hfp2]
  have hsv : selectedVendor ar = some sub := by
    unfold selectedVendor
    rw [ht]
    dsimp only
    rw [hsel]
    rfl
  have hclk : ∀ rel, lookupFS c ("esp32" :: rel) = lookupE sub rel :=
    fun rel => lookupFS_cons_of_singleton hvend rel
  -- the provisos, transported to the state after the replace phase
  have hnd1 : ∀ cc, lookupFS fs0 ["esp32", "boards.txt"] = some (.file cc) →
      isDirAt c ["esp32", "boards.txt"] = false := by
    intro cc hcc
    have hpv := hprov1 (by rw [hcc]; rfl)
    unfold vendorDirAt at hpv
    rw [hsv] at hpv
    dsimp only at hpv
    rw [isDirAt, hclk ["boards.txt"]]
    exact hpv
  have hnd2 : ∀ cc,
      lookupFS fs0 ["esp32", "variants", "bpad_proto1"] = some (.file cc) →
      isDirAt c ["esp32", "variants", "bpad_proto1"] = false := by
    intro cc hcc
    have hpv := hprov2 (by rw [hcc]; rfl)
    unfold vendorDirAt at hpv
    rw [hsv] at hpv
    dsimp only at hpv
    rw [isDirAt, hclk ["variants", "bpad_proto1"]]
    exact hpv
  -- disjointness facts used below
  have hdA : pathDisj ["esp32", "variants", "bpad_proto1"]
      ["esp32", "boards.txt"] := by decide
  have hdB : ¬ ["esp32", "boards.txt"] <+: ["esp32", "variants"] := by decide
  have hdC : pathDisj ["_backup"] ["esp32", "boards.txt"] := by decide
  have hdD : pathDisj ["esp32", "platform.txt"] ["esp32", "boards.txt"] := by
    decide
  have hdE : pathDisj ["esp32", "boards.txt"]
      ["esp32", "variants", "bpad_proto1"] := by decide
  have hdF : ¬ ["esp32", "variants", "bpad_proto1"] <+: ["esp32"] := by decide
  have hdG : pathDisj ["_backup"] ["esp32", "variants", "bpad_proto1"] := by
    decide
  have hdH : pathDisj ["esp32", "platform.txt"]
      ["esp32", "variants", "bpad_proto1"] := by decide
  have hdI : pathDisj ["esp32", "boards.txt"]
      ["_backup", "esp32", "variants", "bpad_proto1"] := by decide
  have hdJ : ¬ ["_backup", "esp32", "variants", "bpad_proto1"] <+: ["esp32"] :=
    by decide
  -- restore phase decomposition
  unfold restorePhase at hD
  obtain ⟨c1, hR1, hrest4⟩ := seqE_eq_ok.mp hD
  obtain ⟨c2, hR2, hRB⟩ := seqE_eq_ok.mp hrest4
  rw [liftE_eq_ok] at hRB
  constructor
  · intro e he
    have hcb : lookupFS c ["_backup", "esp32", "boards.txt"] = some e := by
      rw [hcv1]
      exact he
    have h1 : lookupFS c1 ["esp32", "boards.txt"] = some e := by
      apply restoreOne_value hR1 (by decide) hcb
      intro cc hcc
      rw [hcc] at he
      exact hnd1 cc he
    have h2 : lookupFS c2 ["esp32", "boards.txt"] = some e := by
      rw [restoreOne_disj hR2 hdA hdB]
      exact h1
    have h3 : lookupFS dd ["esp32", "boards.txt"] = some e := by
      rw [rmtreeFS_ok_lookup_disj hRB hdC]
      exact h2
    rw [patchPhase_disj hE hdD]
    exact h3
  · intro e he
    have hcb : lookupFS c ["_backup", "esp32", "variants", "bpad_proto1"]
        = some e := by
      rw [hcv2]
      exact he
    have h1 : lookupFS c1 ["_backup", "esp32", "variants", "bpad_proto1"]
        = some e := by
      rw [restoreOne_disj hR1 hdI hdJ]
      exact hcb
    have h2 : lookupFS c2 ["esp32", "variants", "bpad_proto1"] = some e := by
      apply restoreOne_value hR2 (by decide) h1
      intro cc hcc
      rw [hcc] at he
      rw [isDirAt, restoreOne_disj hR1 hdE hdF]
      exact hnd2 cc he
    have h3 : lookupFS dd ["esp32", "variants", "bpad_proto1"] = some e := by
      rw [rmtreeFS_ok_lookup_disj hRB hdG]
      exact h2
    rw [patchPhase_disj hE hdH]
    exact h3

/-- A well-formed starting state carrying both preserved paths, and an
archive whose single top-level directory ships `boards.txt` as a regular
file, for exercising the amended C1. -/
def c1aFS : FS :=
  [("esp32", .dir
    [("boards.txt", .file "custom"),
     ("variants", .dir [("bpad_proto1", .dir [("pins.h", .file "P")])])])]

def c1aAr : Archive :=
  [⟨["esp32-2.0.17"], none⟩,
   ⟨["esp32-2.0.17", "platform.txt"],
     some "name=ESP32 Arduino\nversion=2.0.17\n"⟩,
   ⟨["esp32-2.0.17", "boards.txt"], some "vendor"⟩]

/-- Witness for the amended C1 at a concrete state and archive: the run
succeeds and both preserved entries come through unchanged. -/
theorem claim_C1_amended_witness :
    ((setupRun c1aFS c1aAr).errMsg = none ∧
      lookupFS c1aFS ["esp32", "boards.txt"] = some (.file "custom")) ∧
    lookupFS (setupRun c1aFS c1aAr).fs ["esp32", "boards.txt"]
      = some (.file "custom") :=
  ⟨⟨rfl, rfl⟩,
    (claim_C1_amended c1aFS c1aAr rfl rfl (fun _ => rfl) (fun _ => rfl)
      rfl).1 (.file "custom") rfl⟩

end Bpad
